import Mathlib

/-!
Verification of the grid/graph/pathfinding/command kernel of the
`dolly-grid-sim` repository, shallowly embedded in Lean.

Modelling conventions
* `Tile` mirrors `gridTypes.ts` (`{ x, z }`, integer coordinates).
* `TileId` is the string `"x:z"` in the source, used only as an injective
  hash-map key, for `===` comparison, and (in `pickClosest`) for an ordering.
  Since the encoding is injective, map keys and id equality are modelled by
  `Tile` itself; the string is materialised only where its *order* matters
  (`stableTileKey` below).  `parseTileId ∘ toTileId = id` in the source, so
  `bfsPath`'s final `.map(parseTileId)` is the identity in this model.
* JS `Record<TileId, _>` maps are modelled as association lists with
  first-match lookup; JS `Set<TileId>` as `Finset Tile`.
* `GridConfig.tileSize`/`origin` are rendering-only floats, never read by any
  function a claim mentions, and are omitted.
-/

namespace DollyGrid

/-- `Tile` from `gridTypes.ts`: an integer coordinate pair `(x, z)`. -/
structure Tile where
  x : Int
  z : Int
deriving DecidableEq, Repr

/-- `GridConfig` from `gridTypes.ts` (the two fields the kernel reads). -/
structure GridConfig where
  rows : Nat
  cols : Nat
deriving DecidableEq, Repr

/-- `tileEquals` from `gridMath.ts`: value equality of the two components. -/
def tileEquals (a b : Tile) : Bool :=
  a.x == b.x && a.z == b.z

/-- `isInBounds` from `gridMath.ts`: `0 ≤ x < cols ∧ 0 ≤ z < rows`. -/
def isInBounds (t : Tile) (g : GridConfig) : Bool :=
  0 ≤ t.x && t.x < (g.cols : Int) && 0 ≤ t.z && t.z < (g.rows : Int)

/-- `allTiles` from `gridMath.ts`: row-major enumeration, outer `z`, inner `x`. -/
def allTiles (g : GridConfig) : List Tile :=
  (List.range g.rows).flatMap fun (z : Nat) =>
    (List.range g.cols).map fun (x : Nat) => ⟨(x : Int), (z : Int)⟩

/-- The edge axis tag from `neighbors.ts`. -/
inductive Axis where
  | X
  | Z
deriving DecidableEq, Repr

/-- `Edge` from `neighbors.ts`: a pair of adjacent tile ids plus an axis tag. -/
structure Edge where
  a : Tile
  b : Tile
  axis : Axis
deriving DecidableEq, Repr

/-- `buildBaseEdges` from `neighbors.ts`: for every tile (in `allTiles` order)
emit the east edge (axis `X`) and the south edge (axis `Z`) when in bounds. -/
def buildBaseEdges (g : GridConfig) : List Edge :=
  (allTiles g).flatMap fun t =>
    (if isInBounds ⟨t.x + 1, t.z⟩ g then [⟨t, ⟨t.x + 1, t.z⟩, Axis.X⟩] else []) ++
    (if isInBounds ⟨t.x, t.z + 1⟩ g then [⟨t, ⟨t.x, t.z + 1⟩, Axis.Z⟩] else [])

/-- `Record<TileId, TileId[]>` modelled as an association list. -/
def Adjacency : Type := List (Tile × List Tile)

/-- The neighbor list accumulated for key `t` by the push loop of
`edgesToAdjacency`: iterating the edges in order, each edge `e` pushes `e.b`
onto `adj[e.a]` and then `e.a` onto `adj[e.b]`. -/
def pushedNeighbors (edges : List Edge) (t : Tile) : List Tile :=
  edges.flatMap fun e =>
    (if e.a = t then [e.b] else []) ++ (if e.b = t then [e.a] else [])

/-- `edgesToAdjacency` from `neighbors.ts`: every tile of the grid gets an
entry (initialised empty), then each undirected edge appends both ways. -/
def edgesToAdjacency (g : GridConfig) (edges : List Edge) : Adjacency :=
  (allTiles g).map fun t => (t, pushedNeighbors edges t)

/-- Reading `adj[t] ?? []`: first-match association lookup, `[]` when absent. -/
def adjGet (adj : Adjacency) (t : Tile) : List Tile :=
  ((List.find? (fun p => p.1 == t) adj).map Prod.snd).getD []

/-- `Mode` from `gridRules.ts`. -/
inductive Mode where
  | NORMAL
  | TRANSPORT
deriving DecidableEq, Repr

/-- `pruneEdgesForTowerModeBlocking` from `gridRules.ts`:
under `TRANSPORT` keep an edge iff neither endpoint is a tower;
under `NORMAL` keep `Z`-axis edges always, `X`-axis edges iff neither
endpoint is a tower. -/
def pruneEdgesForTowerModeBlocking (mode : Mode) (baseEdges : List Edge)
    (towerSet : Finset Tile) : List Edge :=
  baseEdges.filter fun e =>
    let aIsTower := decide (e.a ∈ towerSet)
    let bIsTower := decide (e.b ∈ towerSet)
    match mode with
    | Mode.TRANSPORT => !aIsTower && !bIsTower
    | Mode.NORMAL => if e.axis = Axis.Z then true else !aIsTower && !bIsTower

/-- `buildPrunedAdjacency` from `gridRules.ts`. -/
def buildPrunedAdjacency (mode : Mode) (g : GridConfig) (baseEdges : List Edge)
    (towerSet : Finset Tile) : Adjacency :=
  edgesToAdjacency g (pruneEdgesForTowerModeBlocking mode baseEdges towerSet)

/-- The tower lattice of `generateTowerTiles` (`towerLocations.ts`) before
truncation: `for (z = 2; z < rows; z += 2) for (x = 2; x < cols - 1; x += 2)`.
The iteration counts translate the loop bounds: `z` takes
`⌈(rows - 2) / 2⌉ = (rows - 1) / 2` values (`Nat` subtraction makes this `0`
for `rows ≤ 2`) and `x` takes `⌈(cols - 1 - 2) / 2⌉ = (cols - 2) / 2` values. -/
def towerLattice (g : GridConfig) : List Tile :=
  (List.range' 2 ((g.rows - 1) / 2) 2).flatMap fun (z : Nat) =>
    (List.range' 2 ((g.cols - 2) / 2) 2).map fun (x : Nat) => ⟨(x : Int), (z : Int)⟩

/-- The collection loop of `generateTowerTiles`: push the tile, then return
early as soon as `maxTowers ≤ length` (the check happens *after* the push). -/
def genLoop (maxTowers : Nat) : List Tile → List Tile → List Tile
  | acc, [] => acc
  | acc, t :: ts =>
      let acc' := acc ++ [t]
      if maxTowers ≤ acc'.length then acc' else genLoop maxTowers acc' ts

/-- `generateTowerTiles` from `towerLocations.ts` (the source defaults
`maxTowers` to `24`; the parameter is explicit here). -/
def generateTowerTiles (g : GridConfig) (maxTowers : Nat) : List Tile :=
  genLoop maxTowers [] (towerLattice g)

/-- `buildTowerSet` from `towerLocations.ts`. -/
def buildTowerSet (towers : List Tile) : Finset Tile :=
  towers.toFinset

/-- `isTowerAt` from `towerLocations.ts`. -/
def isTowerAt (t : Tile) (towerSet : Finset Tile) : Bool :=
  decide (t ∈ towerSet)

/-! ### Basic lemmas about the coordinate model -/

theorem tileEquals_iff {a b : Tile} : tileEquals a b = true ↔ a = b := by
  cases a; cases b
  simp [tileEquals, Tile.mk.injEq]

theorem mem_allTiles {t : Tile} {g : GridConfig} :
    t ∈ allTiles g ↔ isInBounds t g = true := by
  obtain ⟨x, z⟩ := t
  constructor
  · intro h
    obtain ⟨zn, hz, hmem⟩ := List.mem_flatMap.1 h
    obtain ⟨xn, hx, heq⟩ := List.mem_map.1 hmem
    rw [List.mem_range] at hz hx
    injection heq with h1 h2
    simp only [isInBounds, Bool.and_eq_true, decide_eq_true_eq]
    refine ⟨⟨⟨?_, ?_⟩, ?_⟩, ?_⟩ <;> omega
  · intro h
    simp only [isInBounds, Bool.and_eq_true, decide_eq_true_eq] at h
    obtain ⟨⟨⟨hx0, hxc⟩, hz0⟩, hzr⟩ := h
    refine List.mem_flatMap.2 ⟨z.toNat, List.mem_range.2 (by omega), ?_⟩
    refine List.mem_map.2 ⟨x.toNat, List.mem_range.2 (by omega), ?_⟩
    simp only [Tile.mk.injEq]
    constructor <;> omega

theorem mem_buildBaseEdges_bounds {e : Edge} {g : GridConfig}
    (he : e ∈ buildBaseEdges g) :
    isInBounds e.a g = true ∧ isInBounds e.b g = true := by
  simp only [buildBaseEdges, List.mem_flatMap, List.mem_append] at he
  obtain ⟨t, ht, h | h⟩ := he
  · by_cases hb : isInBounds ⟨t.x + 1, t.z⟩ g = true
    · rw [if_pos hb] at h
      have he' := List.mem_singleton.1 h
      subst he'
      exact ⟨mem_allTiles.1 ht, hb⟩
    · rw [if_neg hb] at h
      simp at h
  · by_cases hb : isInBounds ⟨t.x, t.z + 1⟩ g = true
    · rw [if_pos hb] at h
      have he' := List.mem_singleton.1 h
      subst he'
      exact ⟨mem_allTiles.1 ht, hb⟩
    · rw [if_neg hb] at h
      simp at h

/-! ### Lookup characterisation of `edgesToAdjacency` -/

theorem find?_map_key (l : List Tile) (F : Tile → List Tile) (t : Tile) :
    (l.map fun u => (u, F u)).find? (fun p => p.1 == t) =
      if t ∈ l then some (t, F t) else none := by
  induction l with
  | nil => rfl
  | cons u l ih =>
    simp only [List.map_cons]
    by_cases hu : u = t
    · subst hu
      rw [List.find?_cons_of_pos _ (by simp)]
      simp
    · rw [List.find?_cons_of_neg _ (by simpa using hu), ih]
      have hmem : (t ∈ u :: l) ↔ (t ∈ l) := by
        simp only [List.mem_cons]
        constructor
        · rintro (rfl | h)
          · exact absurd rfl hu
          · exact h
        · exact Or.inr
      exact (if_congr hmem rfl rfl).symm

theorem adjGet_edgesToAdjacency (g : GridConfig) (edges : List Edge) (t : Tile) :
    adjGet (edgesToAdjacency g edges) t =
      if t ∈ allTiles g then pushedNeighbors edges t else [] := by
  unfold adjGet edgesToAdjacency
  rw [find?_map_key]
  split <;> simp

theorem mem_pushedNeighbors {edges : List Edge} {t b : Tile} :
    b ∈ pushedNeighbors edges t ↔
      ∃ e ∈ edges, (e.a = t ∧ e.b = b) ∨ (e.b = t ∧ e.a = b) := by
  simp only [pushedNeighbors, List.mem_flatMap, List.mem_append]
  constructor
  · rintro ⟨e, he, h | h⟩
    · by_cases ha : e.a = t
      · rw [if_pos ha] at h
        exact ⟨e, he, Or.inl ⟨ha, (List.mem_singleton.1 h).symm⟩⟩
      · rw [if_neg ha] at h
        simp at h
    · by_cases hb : e.b = t
      · rw [if_pos hb] at h
        exact ⟨e, he, Or.inr ⟨hb, (List.mem_singleton.1 h).symm⟩⟩
      · rw [if_neg hb] at h
        simp at h
  · rintro ⟨e, he, ⟨h1, h2⟩ | ⟨h1, h2⟩⟩
    · refine ⟨e, he, Or.inl ?_⟩
      rw [if_pos h1, h2]
      simp
    · refine ⟨e, he, Or.inr ?_⟩
      rw [if_pos h1, h2]
      simp

theorem pruneEdges_subset {mode : Mode} {baseEdges : List Edge}
    {towerSet : Finset Tile} {e : Edge}
    (he : e ∈ pruneEdgesForTowerModeBlocking mode baseEdges towerSet) :
    e ∈ baseEdges :=
  (List.mem_filter.1 he).1

/-- C4: an edge `e` of the base list survives `pruneEdgesForTowerModeBlocking`
iff — under `TRANSPORT` — neither endpoint is in the tower set, and — under
`NORMAL` — its axis is `Z`, or its axis is `X` and neither endpoint is in the
tower set. -/
theorem c4_pruneEdges_mem_iff (mode : Mode) (baseEdges : List Edge)
    (towerSet : Finset Tile) (e : Edge) (he : e ∈ baseEdges) :
    (mode = Mode.TRANSPORT →
      (e ∈ pruneEdgesForTowerModeBlocking mode baseEdges towerSet ↔
        e.a ∉ towerSet ∧ e.b ∉ towerSet)) ∧
    (mode = Mode.NORMAL →
      (e ∈ pruneEdgesForTowerModeBlocking mode baseEdges towerSet ↔
        e.axis = Axis.Z ∨ (e.axis = Axis.X ∧ e.a ∉ towerSet ∧ e.b ∉ towerSet))) := by
  constructor
  · rintro rfl
    simp only [pruneEdgesForTowerModeBlocking, List.mem_filter, he, true_and]
    simp [Bool.and_eq_true, Bool.not_eq_true', decide_eq_false_iff_not]
  · rintro rfl
    simp only [pruneEdgesForTowerModeBlocking, List.mem_filter, he, true_and]
    cases ha : e.axis
    · simp [ha, Bool.and_eq_true, Bool.not_eq_true', decide_eq_false_iff_not]
    · simp [ha]

theorem c4_witness :
    (⟨⟨0, 0⟩, ⟨0, 1⟩, Axis.Z⟩ : Edge) ∈ buildBaseEdges ⟨2, 2⟩ ∧
      ((⟨⟨0, 0⟩, ⟨0, 1⟩, Axis.Z⟩ : Edge) ∈
          pruneEdgesForTowerModeBlocking Mode.NORMAL (buildBaseEdges ⟨2, 2⟩)
            {(⟨0, 0⟩ : Tile)} ↔
        (⟨⟨0, 0⟩, ⟨0, 1⟩, Axis.Z⟩ : Edge).axis = Axis.Z ∨
          ((⟨⟨0, 0⟩, ⟨0, 1⟩, Axis.Z⟩ : Edge).axis = Axis.X ∧
            (⟨⟨0, 0⟩, ⟨0, 1⟩, Axis.Z⟩ : Edge).a ∉ ({(⟨0, 0⟩ : Tile)} : Finset Tile) ∧
            (⟨⟨0, 0⟩, ⟨0, 1⟩, Axis.Z⟩ : Edge).b ∉ ({(⟨0, 0⟩ : Tile)} : Finset Tile))) :=
  ⟨by decide,
    (c4_pruneEdges_mem_iff Mode.NORMAL (buildBaseEdges ⟨2, 2⟩) {(⟨0, 0⟩ : Tile)}
      ⟨⟨0, 0⟩, ⟨0, 1⟩, Axis.Z⟩ (by decide)).2 rfl⟩

/-- C8: the adjacency built by `buildPrunedAdjacency` over the base edges of
the same grid is symmetric: `b ∈ adj[a] ↔ a ∈ adj[b]`. -/
theorem c8_buildPrunedAdjacency_symm (mode : Mode) (g : GridConfig)
    (towerSet : Finset Tile) (a b : Tile) :
    b ∈ adjGet (buildPrunedAdjacency mode g (buildBaseEdges g) towerSet) a ↔
      a ∈ adjGet (buildPrunedAdjacency mode g (buildBaseEdges g) towerSet) b := by
  have key : ∀ u v : Tile,
      v ∈ adjGet (buildPrunedAdjacency mode g (buildBaseEdges g) towerSet) u →
      u ∈ adjGet (buildPrunedAdjacency mode g (buildBaseEdges g) towerSet) v := by
    intro u v hv
    rw [buildPrunedAdjacency, adjGet_edgesToAdjacency] at hv ⊢
    by_cases hu : u ∈ allTiles g
    · rw [if_pos hu] at hv
      obtain ⟨e, hepr, hcase⟩ := mem_pushedNeighbors.1 hv
      have hbase : e ∈ buildBaseEdges g := pruneEdges_subset hepr
      have hbounds := mem_buildBaseEdges_bounds hbase
      have hvmem : v ∈ allTiles g := by
        rcases hcase with ⟨h1, h2⟩ | ⟨h1, h2⟩
        · exact mem_allTiles.2 (h2 ▸ hbounds.2)
        · exact mem_allTiles.2 (h2 ▸ hbounds.1)
      rw [if_pos hvmem]
      refine mem_pushedNeighbors.2 ⟨e, hepr, ?_⟩
      rcases hcase with ⟨h1, h2⟩ | ⟨h1, h2⟩
      · exact Or.inr ⟨h2, h1⟩
      · exact Or.inl ⟨h2, h1⟩
    · rw [if_neg hu] at hv
      simp at hv
  exact ⟨key a b, key b a⟩

/-! ### The tower layout loop -/

theorem genLoop_eq_take :
    ∀ (l acc : List Tile) (m : Nat), acc.length < m →
      genLoop m acc l = acc ++ l.take (m - acc.length) := by
  intro l
  induction l with
  | nil =>
    intro acc m h
    simp [genLoop]
  | cons t ts ih =>
    intro acc m h
    simp only [genLoop]
    by_cases hm : m ≤ (acc ++ [t]).length
    · rw [if_pos hm]
      have hlen : m - acc.length = 1 := by
        simp only [List.length_append, List.length_singleton] at hm
        omega
      rw [hlen]
      simp
    · rw [if_neg hm]
      rw [ih]
      · have h1 : m - acc.length = (m - (acc ++ [t]).length) + 1 := by
          simp only [List.length_append, List.length_singleton] at hm ⊢
          omega
        rw [h1, List.take_succ_cons, List.append_assoc]
        rfl
      · simp only [List.length_append, List.length_singleton] at hm ⊢
        omega

theorem c9_counterexample :
    generateTowerTiles ⟨11, 14⟩ 0 ≠ (towerLattice ⟨11, 14⟩).take 0 ∧
      ¬ ((generateTowerTiles ⟨11, 14⟩ 0).length ≤ 0) := by
  decide

/-- C9 (amended to `1 ≤ maxTowers`): `generateTowerTiles` returns exactly the
nested-iteration lattice (`z` from 2 below `rows` step 2, inside it `x` from 2
below `cols − 1` step 2, in that nested order) truncated to the first
`maxTowers` tiles, and its length never exceeds `maxTowers`.  (For
`maxTowers = 0` the source pushes a tile before checking the cap, see
`c9_counterexample`.)  Determinism over a `GridConfig` is immediate since the
model is a pure function of `g` and `maxTowers`. -/
theorem c9_generateTowerTiles_take (g : GridConfig) (maxTowers : Nat)
    (h : 1 ≤ maxTowers) :
    generateTowerTiles g maxTowers = (towerLattice g).take maxTowers ∧
      (generateTowerTiles g maxTowers).length ≤ maxTowers := by
  have hloop := genLoop_eq_take (towerLattice g) [] maxTowers (by simpa using h)
  rw [generateTowerTiles, hloop]
  simp [List.length_take]

theorem c9_witness :
    1 ≤ 24 ∧
      (generateTowerTiles ⟨11, 14⟩ 24 = (towerLattice ⟨11, 14⟩).take 24 ∧
        (generateTowerTiles ⟨11, 14⟩ 24).length ≤ 24) :=
  ⟨by decide, c9_generateTowerTiles_take ⟨11, 14⟩ 24 (by decide)⟩

/-! ### BFS (`bfs.ts`) and the BFS distance of `expandSwap.ts`

Both functions run the same loop: pop the queue head, stop at the goal,
otherwise mark-and-enqueue each unvisited neighbor.  The loops terminate
because every node is enqueued at most once; the Lean embedding makes this
explicit with a fuel parameter `bfsFuel` large enough that (as proved in the
invariant below) the fuel never runs out before the queue empties. -/

/-- First-match association-list lookup (JS `record[key]`, `undefined` ↦ `none`). -/
def storeFind {β : Type} (store : List (Tile × β)) (t : Tile) : Option β :=
  (List.find? (fun p => p.1 == t) store).map Prod.snd

/-- The neighbor-discovery loop shared by `bfsPath` and `distance`
(`for (const next of ns) { if visited continue; visited.add(next);
store[next] = payload; queue.push(next) }`).  The state is
(visited, store, queued-appends); `bfsPath` stores `some current` in
`cameFrom`, `distance` stores `curD + 1` in `dist`. -/
def discover {β : Type} (payload : β) :
    List Tile × List (Tile × β) × List Tile → List Tile →
      List Tile × List (Tile × β) × List Tile
  | st, [] => st
  | (v, store, qa), nxt :: ns =>
      if nxt ∈ v then discover payload (v, store, qa) ns
      else discover payload (nxt :: v, (nxt, payload) :: store, qa ++ [nxt]) ns

/-- The `while (cur !== null)` walk of `reconstructPath` (`bfs.ts`): push
`cur`, step to `cameFrom[cur] ?? null`, finally reverse.  Fuel-indexed; the
chosen fuel is shown sufficient in `reconstructAux_chain`. -/
def reconstructAux (cf : List (Tile × Option Tile)) :
    Nat → Option Tile → List Tile → List Tile
  | 0, _, acc => acc.reverse
  | _ + 1, none, acc => acc.reverse
  | fuel + 1, some cur, acc =>
      reconstructAux cf fuel ((storeFind cf cur).getD none) (acc ++ [cur])

/-- `reconstructPath` from `bfs.ts` (composed with the final
`.map(parseTileId)`, which is the identity in this model). -/
def reconstructPath (cf : List (Tile × Option Tile)) (goal : Tile) : List Tile :=
  reconstructAux cf (cf.length + 1) (some goal) []

/-- Fuel bound: one initial enqueue plus at most one enqueue per occurrence of
a tile in some neighbor list. -/
def bfsFuel (adj : Adjacency) : Nat :=
  1 + (adj.flatMap fun p => p.2).length

/-- The `while` loop of `bfsPath` (`bfs.ts`). -/
def bfsAux (adj : Adjacency) (goal : Tile) :
    Nat → List Tile → List Tile → List (Tile × Option Tile) → List Tile
  | 0, _, _, _ => []
  | _ + 1, [], _, _ => []
  | fuel + 1, current :: qrest, visited, cameFrom =>
      if current = goal then reconstructPath cameFrom goal
      else
        match discover (some current) (visited, cameFrom, []) (adjGet adj current) with
        | (visited', cameFrom', qnew) => bfsAux adj goal fuel (qrest ++ qnew) visited' cameFrom'

/-- `bfsPath` from `bfs.ts`. -/
def bfsPath (adj : Adjacency) (start goal : Tile) : List Tile :=
  if start = goal then [start]
  else bfsAux adj goal (bfsFuel adj) [start] [start] [(start, none)]

/-- The `while` loop of `distance` (`expandSwap.ts`); `none` models the
`Number.POSITIVE_INFINITY` return. -/
def distanceAux (adj : Adjacency) (goal : Tile) :
    Nat → List Tile → List Tile → List (Tile × Nat) → Option Nat
  | 0, _, _, _ => none
  | _ + 1, [], _, _ => none
  | fuel + 1, current :: qrest, visited, dist =>
      -- `curD = dist[cur] ?? 0` is read once in the source; inlined here
      if current = goal then some ((storeFind dist current).getD 0)
      else
        match discover ((storeFind dist current).getD 0 + 1) (visited, dist, [])
            (adjGet adj current) with
        | (visited', dist', qnew) => distanceAux adj goal fuel (qrest ++ qnew) visited' dist'

/-- `distance` from `expandSwap.ts`. -/
def distance (adj : Adjacency) (f t : Tile) : Option Nat :=
  if f = t then some 0
  else distanceAux adj t (bfsFuel adj) [f] [f] [(f, 0)]

/-! ### Graph distance, mathematically -/

/-- `s` reaches `v` in exactly `n` adjacency steps. -/
inductive ReachN (adj : Adjacency) (s : Tile) : Tile → Nat → Prop
  | refl : ReachN adj s s 0
  | step {u v : Tile} {n : Nat} :
      ReachN adj s u n → v ∈ adjGet adj u → ReachN adj s v (n + 1)

def Reachable (adj : Adjacency) (s g : Tile) : Prop :=
  ∃ n, ReachN adj s g n

/-- `n` is the graph distance from `s` to `g` in `adj`. -/
def IsBfsDist (adj : Adjacency) (s g : Tile) (n : Nat) : Prop :=
  ReachN adj s g n ∧ ∀ m, ReachN adj s g m → n ≤ m

/-- A path as a tile sequence: starts at `s`, ends at `g`, consecutive tiles
adjacent (this is the path notion of the spec and of `bfsPath`'s output). -/
def PathFromTo (adj : Adjacency) (s g : Tile) (p : List Tile) : Prop :=
  p.head? = some s ∧ p.getLast? = some g ∧ p.Chain' (fun u v => v ∈ adjGet adj u)

/-- A reversed path `[v, parent v, …, s]` (the order `reconstructPath` pushes). -/
def RevPath (adj : Adjacency) (s v : Tile) (p : List Tile) : Prop :=
  p.head? = some v ∧ p.getLast? = some s ∧ p.Chain' (fun a b => a ∈ adjGet adj b)

theorem reachN_zero_iff {adj : Adjacency} {s v : Tile} :
    ReachN adj s v 0 ↔ v = s := by
  constructor
  · intro h
    cases h
    rfl
  · rintro rfl
    exact ReachN.refl

theorem isBfsDist_unique {adj : Adjacency} {s g : Tile} {n m : Nat}
    (hn : IsBfsDist adj s g n) (hm : IsBfsDist adj s g m) : n = m :=
  Nat.le_antisymm (hn.2 m hm.1) (hm.2 n hn.1)

theorem reachable_isBfsDist {adj : Adjacency} {s g : Tile}
    (h : Reachable adj s g) : ∃ n, IsBfsDist adj s g n := by
  obtain ⟨n, hn⟩ := h
  have hne : {m : Nat | ReachN adj s g m}.Nonempty := ⟨n, hn⟩
  exact ⟨sInf {m : Nat | ReachN adj s g m}, Nat.sInf_mem hne,
    fun m hm => Nat.sInf_le hm⟩

theorem isBfsDist_pred {adj : Adjacency} {s v : Tile} {n : Nat}
    (h : IsBfsDist adj s v (n + 1)) :
    ∃ u, v ∈ adjGet adj u ∧ IsBfsDist adj s u n := by
  obtain ⟨hr, hmin⟩ := h
  cases hr with
  | step hu hedge =>
    rename_i u
    refine ⟨u, hedge, hu, ?_⟩
    intro k hk
    by_contra hlt
    push_neg at hlt
    have : ReachN adj s v (k + 1) := ReachN.step hk hedge
    have := hmin (k + 1) this
    omega

theorem reachN_closed {adj : Adjacency} {s : Tile} {V : List Tile}
    (hclosed : ∀ u ∈ V, ∀ w ∈ adjGet adj u, w ∈ V) (hs : s ∈ V) :
    ∀ {w n}, ReachN adj s w n → w ∈ V := by
  intro w n h
  induction h with
  | refl => exact hs
  | step _ hedge ih => exact hclosed _ ih _ hedge

/-- Bridge between step-counted reachability and list paths. -/
theorem reachN_iff_path {adj : Adjacency} {s g : Tile} {n : Nat} :
    ReachN adj s g n ↔ ∃ p, PathFromTo adj s g p ∧ p.length = n + 1 := by
  constructor
  · intro h
    induction h with
    | refl => exact ⟨[s], ⟨rfl, rfl, List.chain'_singleton s⟩, rfl⟩
    | step hu hedge ih =>
      rename_i u v m
      obtain ⟨p, ⟨hh, hl, hc⟩, hlen⟩ := ih
      have hpne : p ≠ [] := by
        intro h0
        rw [h0] at hh
        exact Option.noConfusion hh
      refine ⟨p ++ [v], ⟨?_, ?_, ?_⟩, by simp [hlen]⟩
      · rw [List.head?_append, hh]
        rfl
      · rw [List.getLast?_append]
        rfl
      · rw [List.chain'_append]
        refine ⟨hc, List.chain'_singleton v, ?_⟩
        intro x hx y hy
        rw [hl] at hx
        cases hx
        cases hy
        exact hedge
  · intro h
    obtain ⟨p, hp, hlen⟩ := h
    induction n generalizing g p with
    | zero =>
      obtain ⟨hh, hl, _⟩ := hp
      obtain ⟨a, rfl⟩ := List.length_eq_one.1 hlen
      simp only [List.head?_cons, Option.some.injEq] at hh
      simp only [List.getLast?_singleton, Option.some.injEq] at hl
      subst hh
      subst hl
      exact ReachN.refl
    | succ m ih =>
      obtain ⟨hh, hl, hc⟩ := hp
      have hpne : p ≠ [] := by
        intro h0
        rw [h0] at hh
        exact Option.noConfusion hh
      have hg : p.getLast hpne = g := by
        rw [List.getLast?_eq_getLast p hpne] at hl
        exact Option.some.inj hl
      have hsplit : p = p.dropLast ++ [g] := by
        rw [← hg]
        exact (List.dropLast_append_getLast hpne).symm
      have hqlen : p.dropLast.length = m + 1 := by
        rw [List.length_dropLast, hlen]
        omega
      have hqne : p.dropLast ≠ [] := by
        intro h0
        rw [h0] at hqlen
        exact Nat.noConfusion hqlen
      have hchain : List.Chain' (fun u v => v ∈ adjGet adj u) (p.dropLast ++ [g]) := by
        rw [← hsplit]
        exact hc
      rw [List.chain'_append] at hchain
      obtain ⟨hcq, _, hlink⟩ := hchain
      have hql : p.dropLast.getLast? = some (p.dropLast.getLast hqne) :=
        List.getLast?_eq_getLast p.dropLast hqne
      have hedge : g ∈ adjGet adj (p.dropLast.getLast hqne) := hlink _ hql g rfl
      have hhead : p.dropLast.head? = some s := by
        rw [hsplit, List.head?_append] at hh
        cases hq0 : p.dropLast.head? with
        | none => exact absurd (List.head?_eq_none_iff.1 hq0) hqne
        | some a =>
          rw [hq0] at hh
          simpa using hh
      have hreach : ReachN adj s (p.dropLast.getLast hqne) m :=
        ih p.dropLast ⟨hhead, hql, hcq⟩ hqlen
      exact ReachN.step hreach hedge

/-! ### The `cameFrom` chain and `reconstructPath` -/

/-- `CFChain cf v p`: walking predecessors from `v` via
`cameFrom[·] ?? null` visits exactly the tiles of `p` (in push order,
`p = [v, parent v, …, root]`). -/
inductive CFChain (cf : List (Tile × Option Tile)) : Tile → List Tile → Prop
  | base {v : Tile} : (storeFind cf v).getD none = none → CFChain cf v [v]
  | step {v u : Tile} {l : List Tile} : (storeFind cf v).getD none = some u →
      CFChain cf u l → CFChain cf v (v :: l)

theorem reconstructAux_none (cf : List (Tile × Option Tile)) (fuel : Nat)
    (acc : List Tile) : reconstructAux cf fuel none acc = acc.reverse := by
  cases fuel <;> rfl

theorem reconstructAux_chain (cf : List (Tile × Option Tile)) {v : Tile}
    {p : List Tile} (h : CFChain cf v p) :
    ∀ (acc : List Tile) (fuel : Nat), p.length ≤ fuel →
      reconstructAux cf fuel (some v) acc = (acc ++ p).reverse := by
  induction h with
  | base hnone =>
    intro acc fuel hfuel
    match fuel, hfuel with
    | f + 1, _ =>
      show reconstructAux cf f ((storeFind cf _).getD none) (acc ++ [_]) = _
      rw [hnone, reconstructAux_none]
  | @step v u l hsome _ ih =>
    intro acc fuel hfuel
    match fuel, hfuel with
    | f + 1, hfuel =>
      show reconstructAux cf f ((storeFind cf v).getD none) (acc ++ [v]) = _
      rw [hsome, ih (acc ++ [v]) f (by simpa using Nat.succ_le_succ_iff.1 hfuel),
        List.append_assoc]
      rfl

theorem reconstructPath_chain {cf : List (Tile × Option Tile)} {v : Tile}
    {p : List Tile} (h : CFChain cf v p) (hlen : p.length ≤ cf.length + 1) :
    reconstructPath cf v = p.reverse := by
  rw [reconstructPath, reconstructAux_chain cf h [] (cf.length + 1) hlen]
  simp

/-- Chains only consult the lookups of their own nodes, so they survive any
store extension that leaves those lookups unchanged. -/
theorem cfChain_mono {cf cf' : List (Tile × Option Tile)} {v : Tile}
    {p : List Tile} (h : CFChain cf v p)
    (hpres : ∀ x ∈ p, (storeFind cf' x).getD none = (storeFind cf x).getD none) :
    CFChain cf' v p := by
  induction h with
  | base hnone =>
    exact CFChain.base ((hpres _ (List.mem_singleton.2 rfl)).trans hnone)
  | step hsome hchain ih =>
    rename_i v u l
    refine CFChain.step ((hpres _ (List.mem_cons_self v l)).trans hsome) ?_
    exact ih fun x hx => hpres x (List.mem_cons_of_mem v hx)

theorem cfChain_nonempty {cf : List (Tile × Option Tile)} {v : Tile}
    {p : List Tile} (h : CFChain cf v p) : p ≠ [] := by
  cases h <;> simp

/-! ### Store lookup lemmas -/

theorem storeFind_prepend_of_not_key {β : Type} {entries : List (Tile × β)}
    (store : List (Tile × β)) {t : Tile} (h : ∀ e ∈ entries, e.1 ≠ t) :
    storeFind (entries ++ store) t = storeFind store t := by
  induction entries with
  | nil => rfl
  | cons e es ih =>
    rw [storeFind, List.cons_append,
      List.find?_cons_of_neg _ (by simpa using h e (List.mem_cons_self e es))]
    exact ih fun e' he' => h e' (List.mem_cons_of_mem e he')

theorem storeFind_payload_block {β : Type} {payload : β} :
    ∀ (entries : List (Tile × β)) (store : List (Tile × β)) (t : Tile),
      (∀ e ∈ entries, e.2 = payload) → (∃ e ∈ entries, e.1 = t) →
      storeFind (entries ++ store) t = some payload := by
  intro entries
  induction entries with
  | nil =>
    intro store t _ hex
    simp at hex
  | cons e es ih =>
    intro store t hall hex
    by_cases he : e.1 = t
    · rw [storeFind, List.cons_append, List.find?_cons_of_pos _ (by simpa using he)]
      simp [hall e (List.mem_cons_self e es)]
    · rw [storeFind, List.cons_append, List.find?_cons_of_neg _ (by simpa using he)]
      obtain ⟨e', he', hkey⟩ := hex
      rcases List.mem_cons.1 he' with rfl | he''
      · exact absurd hkey he
      · exact ih store t (fun x hx => hall x (List.mem_cons_of_mem e hx)) ⟨e', he'', hkey⟩

/-! ### Characterisation of the discovery loop -/

theorem discover_spec {β : Type} (payload : β) :
    ∀ (ns v : List Tile) (store : List (Tile × β)) (qa : List Tile),
      ∃ news : List Tile,
        discover payload (v, store, qa) ns =
          (news.reverse ++ v, (news.map fun w => (w, payload)).reverse ++ store,
            qa ++ news) ∧
        news.Nodup ∧
        (∀ w ∈ news, w ∈ ns ∧ w ∉ v) ∧
        (∀ w ∈ ns, w ∉ v → w ∈ news) := by
  intro ns
  induction ns with
  | nil =>
    intro v store qa
    exact ⟨[], by simp [discover], by simp, by simp, by simp⟩
  | cons nxt ns ih =>
    intro v store qa
    by_cases hn : nxt ∈ v
    · rw [show discover payload (v, store, qa) (nxt :: ns) =
          discover payload (v, store, qa) ns from by rw [discover, if_pos hn]]
      obtain ⟨news, heq, hnd, hsub, hcomp⟩ := ih v store qa
      refine ⟨news, heq, hnd, ?_, ?_⟩
      · intro w hw
        exact ⟨List.mem_cons_of_mem _ (hsub w hw).1, (hsub w hw).2⟩
      · intro w hw hwv
        rcases List.mem_cons.1 hw with rfl | hw'
        · exact absurd hn hwv
        · exact hcomp w hw' hwv
    · rw [show discover payload (v, store, qa) (nxt :: ns) =
          discover payload (nxt :: v, (nxt, payload) :: store, qa ++ [nxt]) ns from by
            rw [discover, if_neg hn]]
      obtain ⟨news, heq, hnd, hsub, hcomp⟩ := ih (nxt :: v) ((nxt, payload) :: store) (qa ++ [nxt])
      refine ⟨nxt :: news, ?_, ?_, ?_, ?_⟩
      · rw [heq]
        simp [List.append_assoc]
      · refine List.nodup_cons.2 ⟨?_, hnd⟩
        intro hmem
        exact (hsub nxt hmem).2 (List.mem_cons_self nxt v)
      · intro w hw
        rcases List.mem_cons.1 hw with rfl | hw'
        · exact ⟨List.mem_cons_self w ns, hn⟩
        · exact ⟨List.mem_cons_of_mem _ (hsub w hw').1,
            fun hv => (hsub w hw').2 (List.mem_cons_of_mem _ hv)⟩
      · intro w hw hwv
        rcases List.mem_cons.1 hw with rfl | hw'
        · exact List.mem_cons_self w news
        · by_cases hwn : w = nxt
          · exact hwn ▸ List.mem_cons_self nxt news
          · exact List.mem_cons_of_mem _
              (hcomp w hw' (fun hm => (List.mem_cons.1 hm).elim hwn hwv))

/-! ### The node universe and the fuel bound -/

/-- Every tile that can ever be enqueued: the start plus every tile occurring
in some neighbor list of `adj`. -/
def adjUniverse (adj : Adjacency) (s : Tile) : Finset Tile :=
  insert s (adj.flatMap fun p => p.2).toFinset

theorem adjGet_subset_universe {adj : Adjacency} {s u w : Tile}
    (hw : w ∈ adjGet adj u) : w ∈ adjUniverse adj s := by
  rw [adjGet] at hw
  cases hfind : List.find? (fun p => p.1 == u) adj with
  | none =>
    rw [hfind] at hw
    simp at hw
  | some p =>
    rw [hfind] at hw
    refine Finset.mem_insert_of_mem (List.mem_toFinset.2 ?_)
    exact List.mem_flatMap.2 ⟨p, List.mem_of_find?_eq_some hfind, hw⟩

theorem adjUniverse_card_le (adj : Adjacency) (s : Tile) :
    (adjUniverse adj s).card ≤ bfsFuel adj := by
  rw [adjUniverse, bfsFuel]
  calc (insert s (adj.flatMap fun p => p.2).toFinset).card
      ≤ (adj.flatMap fun p => p.2).toFinset.card + 1 := Finset.card_insert_le _ _
    _ ≤ (adj.flatMap fun p => p.2).length + 1 := by
        exact Nat.add_le_add_right (adj.flatMap fun p => p.2).toFinset_card_le _
    _ = 1 + (adj.flatMap fun p => p.2).length := Nat.add_comm _ _

/-! ### The BFS loop invariant (shared by `bfsAux` and `distanceAux`) -/

/-- Queue ordering relation: distances are non-decreasing and spread ≤ 1. -/
def QRel (adj : Adjacency) (s : Tile) (a b : Tile) : Prop :=
  ∀ na nb, IsBfsDist adj s a na → IsBfsDist adj s b nb → na ≤ nb ∧ nb ≤ na + 1

/-- The bookkeeping-independent BFS loop invariant: `q` is the pending queue,
`V` the visited (= ever-enqueued) tiles. -/
structure BfsCore (adj : Adjacency) (s goal : Tile) (fuel : Nat)
    (q V : List Tile) : Prop where
  qsub : ∀ x ∈ q, x ∈ V
  start_mem : s ∈ V
  goal_pending : goal ∈ V → goal ∈ q
  frontier : ∀ u ∈ V, u ∉ q → ∀ w ∈ adjGet adj u, w ∈ V
  vdist : ∀ v ∈ V, ∃ n, IsBfsDist adj s v n
  sorted : List.Pairwise (QRel adj s) q
  closure : ∀ w nw, IsBfsDist adj s w nw →
      (∀ h nh, q.head? = some h → IsBfsDist adj s h nh → nw ≤ nh) → w ∈ V
  fuel_ge : q.length + ((adjUniverse adj s) \ V.toFinset).card ≤ fuel

theorem bfsCore_start {adj : Adjacency} {s goal : Tile} :
    BfsCore adj s goal (bfsFuel adj) [s] [s] := by
  have hdist0 : IsBfsDist adj s s 0 := ⟨ReachN.refl, fun m _ => Nat.zero_le m⟩
  refine ⟨?_, ?_, ?_, ?_, ?_, ?_, ?_, ?_⟩
  · intro x hx; exact hx
  · exact List.mem_singleton.2 rfl
  · intro h; exact h
  · intro u hu hnq
    have hus : u = s := List.mem_singleton.1 hu
    subst hus
    exact absurd (List.mem_singleton.2 rfl) hnq
  · intro v hv
    exact ⟨0, List.mem_singleton.1 hv ▸ hdist0⟩
  · exact List.pairwise_singleton _ _
  · intro w nw hw hprem
    have : nw ≤ 0 := hprem s 0 rfl hdist0
    have hw0 : ReachN adj s w 0 := by
      have : nw = 0 := Nat.le_zero.1 this
      exact this ▸ hw.1
    rw [reachN_zero_iff.1 hw0]
    exact List.mem_singleton.2 rfl
  · have h1 : ((adjUniverse adj s) \ [s].toFinset).card + 1 ≤ bfsFuel adj := by
      have hsub : (adjUniverse adj s) \ [s].toFinset ⊆ adjUniverse adj s \ {s} := by
        intro x hx
        simp only [Finset.mem_sdiff, List.toFinset_cons, List.toFinset_nil,
          insert_emptyc_eq, Finset.mem_insert, Finset.mem_singleton] at hx ⊢
        tauto
      have hcard : ((adjUniverse adj s) \ {s}).card + 1 ≤ bfsFuel adj := by
        have hs : s ∈ adjUniverse adj s := Finset.mem_insert_self _ _
        have := Finset.card_sdiff (Finset.singleton_subset_iff.2 hs)
        rw [this, Finset.card_singleton]
        have := adjUniverse_card_le adj s
        have hpos : 1 ≤ (adjUniverse adj s).card := Finset.card_pos.2 ⟨s, hs⟩
        omega
      have := Finset.card_le_card hsub
      omega
    simpa [Nat.add_comm] using h1

theorem bfsCore_step {adj : Adjacency} {s goal : Tile} {fuel : Nat}
    {current : Tile} {qrest V news : List Tile}
    (inv : BfsCore adj s goal (fuel + 1) (current :: qrest) V)
    (hgoal : current ≠ goal)
    (hnd : news.Nodup)
    (hsub : ∀ w ∈ news, w ∈ adjGet adj current ∧ w ∉ V)
    (hcomp : ∀ w ∈ adjGet adj current, w ∉ V → w ∈ news)
    {dc : Nat} (hdc : IsBfsDist adj s current dc) :
    BfsCore adj s goal fuel (qrest ++ news) (news.reverse ++ V) ∧
      ∀ w ∈ news, IsBfsDist adj s w (dc + 1) := by
  have hcurV : current ∈ V := inv.qsub current (List.mem_cons_self _ _)
  have hmemV' : ∀ x : Tile, x ∈ news.reverse ++ V ↔ x ∈ news ∨ x ∈ V := by
    intro x
    simp [List.mem_append, List.mem_reverse]
  -- every newly discovered tile sits exactly one layer beyond `current`
  have hfactA : ∀ w ∈ news, IsBfsDist adj s w (dc + 1) := by
    intro w hw
    obtain ⟨hwadj, hwV⟩ := hsub w hw
    have hreach : ReachN adj s w (dc + 1) := ReachN.step hdc.1 hwadj
    obtain ⟨m, hm⟩ := reachable_isBfsDist ⟨dc + 1, hreach⟩
    have hm_le : m ≤ dc + 1 := hm.2 _ hreach
    have hm_gt : dc < m := by
      by_contra hle
      push_neg at hle
      have hwV' : w ∈ V := by
        refine inv.closure w m hm ?_
        intro h nh hh hdh
        have hcur : h = current := by
          rw [List.head?_cons] at hh
          exact (Option.some.inj hh).symm
        subst hcur
        have : nh = dc := isBfsDist_unique hdh hdc
        omega
      exact hwV hwV'
    have hmeq : m = dc + 1 := by omega
    exact hmeq ▸ hm
  have hpc := List.pairwise_cons.1 inv.sorted
  have hcur_rest : ∀ b ∈ qrest, QRel adj s current b := hpc.1
  have hrest : List.Pairwise (QRel adj s) qrest := hpc.2
  -- the new frontier property, needed both as a field and inside `closure`
  have hfront' : ∀ u ∈ news.reverse ++ V, u ∉ qrest ++ news →
      ∀ w ∈ adjGet adj u, w ∈ news.reverse ++ V := by
    intro u hu hunq w hw
    rcases (hmemV' u).1 hu with hun | huV
    · exact absurd (List.mem_append.2 (Or.inr hun)) hunq
    · by_cases hcur : u = current
      · subst hcur
        by_cases hwV : w ∈ V
        · exact (hmemV' w).2 (Or.inr hwV)
        · exact (hmemV' w).2 (Or.inl (hcomp w hw hwV))
      · have hnotq : u ∉ current :: qrest := by
          intro hm
          rcases List.mem_cons.1 hm with rfl | hm'
          · exact hcur rfl
          · exact hunq (List.mem_append.2 (Or.inl hm'))
        exact (hmemV' w).2 (Or.inr (inv.frontier u huV hnotq w hw))
  have hvdist' : ∀ v ∈ news.reverse ++ V, ∃ n, IsBfsDist adj s v n := by
    intro v hv
    rcases (hmemV' v).1 hv with hvn | hvV
    · exact ⟨dc + 1, hfactA v hvn⟩
    · exact inv.vdist v hvV
  refine ⟨⟨?_, ?_, ?_, hfront', hvdist', ?_, ?_, ?_⟩, hfactA⟩
  · -- qsub
    intro x hx
    rcases List.mem_append.1 hx with hx' | hx'
    · exact (hmemV' x).2 (Or.inr (inv.qsub x (List.mem_cons_of_mem _ hx')))
    · exact (hmemV' x).2 (Or.inl hx')
  · -- start_mem
    exact (hmemV' s).2 (Or.inr inv.start_mem)
  · -- goal_pending
    intro hg
    rcases (hmemV' goal).1 hg with hgn | hgV
    · exact List.mem_append.2 (Or.inr hgn)
    · rcases List.mem_cons.1 (inv.goal_pending hgV) with h | h
      · exact absurd h.symm hgoal
      · exact List.mem_append.2 (Or.inl h)
  · -- sorted
    refine List.pairwise_append.2 ⟨hrest, ?_, ?_⟩
    · refine List.pairwise_of_forall_mem_list ?_
      intro a ha b hb na nb hna hnb
      have h1 : na = dc + 1 := isBfsDist_unique hna (hfactA a ha)
      have h2 : nb = dc + 1 := isBfsDist_unique hnb (hfactA b hb)
      omega
    · intro a ha b hb na nb hna hnb
      have h2 : nb = dc + 1 := isBfsDist_unique hnb (hfactA b hb)
      have h3 := hcur_rest a ha dc na hdc hna
      omega
  · -- closure
    intro w nw hw hprem
    by_cases hql : qrest ++ news = []
    · have hclosed : ∀ u ∈ news.reverse ++ V, ∀ x ∈ adjGet adj u,
          x ∈ news.reverse ++ V := by
        intro u hu x hx
        exact hfront' u hu (by simp [hql]) x hx
      exact reachN_closed hclosed ((hmemV' s).2 (Or.inr inv.start_mem)) hw.1
    · -- there is a queue head `h`
      obtain ⟨h, hh⟩ : ∃ h, (qrest ++ news).head? = some h := by
        rcases hq : qrest ++ news with _ | ⟨a, l⟩
        · exact absurd hq hql
        · exact ⟨a, rfl⟩
      have hhq : h ∈ qrest ++ news := List.mem_of_mem_head? hh
      obtain ⟨nh, hnh⟩ : ∃ nh, IsBfsDist adj s h nh := by
        rcases List.mem_append.1 hhq with h' | h'
        · exact inv.vdist h (inv.qsub h (List.mem_cons_of_mem _ h'))
        · exact ⟨dc + 1, hfactA h h'⟩
      have hw_le_nh : nw ≤ nh := hprem h nh hh hnh
      have hnh_cases : nh = dc ∨ nh = dc + 1 := by
        rcases List.mem_append.1 hhq with h' | h'
        · have := hcur_rest h h' dc nh hdc hnh
          omega
        · exact Or.inr (isBfsDist_unique hnh (hfactA h h'))
      by_cases hnw_dc : nw ≤ dc
      · -- already covered by the previous closure
        refine (hmemV' w).2 (Or.inr (inv.closure w nw hw ?_))
        intro h' nh' hh' hdh'
        have hcur : h' = current := by
          rw [List.head?_cons] at hh'
          exact (Option.some.inj hh').symm
        subst hcur
        have : nh' = dc := isBfsDist_unique hdh' hdc
        omega
      · -- `nw = dc + 1`: go through the predecessor, which is fully processed
        have hnw : nw = dc + 1 := by omega
        have hnh1 : nh = dc + 1 := by omega
        obtain ⟨u, hedge, hu_dist⟩ := isBfsDist_pred (hnw ▸ hw)
        have hu_V : u ∈ V := by
          refine inv.closure u dc hu_dist ?_
          intro h' nh' hh' hdh'
          have hcur : h' = current := by
            rw [List.head?_cons] at hh'
            exact (Option.some.inj hh').symm
          subst hcur
          have : nh' = dc := isBfsDist_unique hdh' hdc
          omega
        have hall_ge : ∀ y ∈ qrest ++ news, ∀ ny, IsBfsDist adj s y ny →
            dc + 1 ≤ ny := by
          intro y hy ny hny
          rcases List.mem_append.1 hy with hy' | hy'
          · cases hqr : qrest with
            | nil => rw [hqr] at hy'; exact absurd hy' (List.not_mem_nil y)
            | cons q0 qr' =>
              have hq0 : h = q0 := by
                rw [hqr, List.cons_append, List.head?_cons] at hh
                exact (Option.some.inj hh).symm
              rw [hqr] at hy'
              rcases List.mem_cons.1 hy' with rfl | hy''
              · have : ny = nh := isBfsDist_unique hny (hq0 ▸ hnh)
                omega
              · have hq0nh : IsBfsDist adj s q0 nh := hq0 ▸ hnh
                have hpair := (List.pairwise_cons.1 (hqr ▸ hrest)).1 y hy''
                have := hpair nh ny hq0nh hny
                omega
          · have : ny = dc + 1 := isBfsDist_unique hny (hfactA y hy')
            omega
        have hu_notq : u ∉ qrest ++ news := by
          intro hm
          have := hall_ge u hm dc hu_dist
          omega
        exact hfront' u ((hmemV' u).2 (Or.inr hu_V)) hu_notq w hedge
  · -- fuel_ge
    have hnewsU : news.toFinset ⊆ (adjUniverse adj s) \ V.toFinset := by
      intro w hw
      rw [List.mem_toFinset] at hw
      refine Finset.mem_sdiff.2 ⟨adjGet_subset_universe (hsub w hw).1, ?_⟩
      rw [List.mem_toFinset]
      exact (hsub w hw).2
    have hVF : (news.reverse ++ V).toFinset = news.toFinset ∪ V.toFinset := by
      rw [List.toFinset_append, List.toFinset_reverse]
    have hsd : (adjUniverse adj s) \ (news.reverse ++ V).toFinset =
        ((adjUniverse adj s) \ V.toFinset) \ news.toFinset := by
      rw [hVF]
      ext x
      simp only [Finset.mem_sdiff, Finset.mem_union]
      tauto
    have hcard : (((adjUniverse adj s) \ V.toFinset) \ news.toFinset).card =
        ((adjUniverse adj s) \ V.toFinset).card - news.toFinset.card :=
      Finset.card_sdiff hnewsU
    have hle : news.toFinset.card ≤ ((adjUniverse adj s) \ V.toFinset).card :=
      Finset.card_le_card hnewsU
    have hlen : news.toFinset.card = news.length := by
      rw [List.toFinset_card_of_nodup hnd]
    have hfuel := inv.fuel_ge
    rw [List.length_cons] at hfuel
    rw [List.length_append, hsd, hcard, hlen]
    omega

/-! ### Bookkeeping invariants: `cameFrom` for `bfsPath`, `dist` for `distance` -/

/-- `cameFrom` bookkeeping: every visited node has a predecessor chain that is
a reversed shortest path back to `s`. -/
def BfsBook (adj : Adjacency) (s : Tile) (V : List Tile)
    (cf : List (Tile × Option Tile)) : Prop :=
  (∀ e ∈ cf, e.1 ∈ V) ∧
  ∀ v ∈ V, ∃ n p, IsBfsDist adj s v n ∧ CFChain cf v p ∧ p.length = n + 1 ∧
    p.length ≤ cf.length ∧ (∀ u ∈ p, u ∈ V) ∧ RevPath adj s v p

/-- `dist` bookkeeping: every visited node's recorded distance is its graph
distance. -/
def DistBook (adj : Adjacency) (s : Tile) (V : List Tile)
    (dist : List (Tile × Nat)) : Prop :=
  ∀ v ∈ V, ∃ n, IsBfsDist adj s v n ∧ (storeFind dist v).getD 0 = n

theorem bfsBook_start {adj : Adjacency} {s : Tile} :
    BfsBook adj s [s] [(s, none)] := by
  constructor
  · intro e he
    rw [List.mem_singleton.1 he]
    exact List.mem_singleton.2 rfl
  · intro v hv
    have hv' : v = s := List.mem_singleton.1 hv
    subst hv'
    refine ⟨0, [v], ⟨ReachN.refl, fun m _ => Nat.zero_le m⟩, ?_, rfl, by simp,
      fun u hu => hu, ⟨rfl, rfl, List.chain'_singleton v⟩⟩
    refine CFChain.base ?_
    rw [storeFind, List.find?_cons_of_pos _ (by simp)]
    rfl

theorem distBook_start {adj : Adjacency} {s : Tile} :
    DistBook adj s [s] [(s, 0)] := by
  intro v hv
  have hv' : v = s := List.mem_singleton.1 hv
  subst hv'
  refine ⟨0, ⟨ReachN.refl, fun m _ => Nat.zero_le m⟩, ?_⟩
  rw [storeFind, List.find?_cons_of_pos _ (by simp)]
  rfl

theorem bfsBook_step {adj : Adjacency} {s current : Tile} {V news : List Tile}
    {cf : List (Tile × Option Tile)} {dc : Nat}
    (book : BfsBook adj s V cf)
    (hsub : ∀ w ∈ news, w ∈ adjGet adj current ∧ w ∉ V)
    (hcurV : current ∈ V)
    (hdc : IsBfsDist adj s current dc)
    (hfactA : ∀ w ∈ news, IsBfsDist adj s w (dc + 1)) :
    BfsBook adj s (news.reverse ++ V)
      ((news.map fun w => (w, some current)).reverse ++ cf) := by
  obtain ⟨hkeys, hnode⟩ := book
  have hmemV' : ∀ x : Tile, x ∈ news.reverse ++ V ↔ x ∈ news ∨ x ∈ V := by
    intro x
    simp [List.mem_append, List.mem_reverse]
  have hentkeys : ∀ e ∈ (news.map fun w => (w, some current)).reverse,
      e.1 ∈ news := by
    intro e he
    rw [List.mem_reverse] at he
    obtain ⟨w, hw, rfl⟩ := List.mem_map.1 he
    exact hw
  have hpres : ∀ x ∈ V,
      storeFind ((news.map fun w => (w, some current)).reverse ++ cf) x =
        storeFind cf x := by
    intro x hx
    refine storeFind_prepend_of_not_key cf ?_
    intro e he heq
    exact (hsub e.1 (hentkeys e he)).2 (heq ▸ hx)
  constructor
  · intro e he
    rcases List.mem_append.1 he with he' | he'
    · exact (hmemV' e.1).2 (Or.inl (hentkeys e he'))
    · exact (hmemV' e.1).2 (Or.inr (hkeys e he'))
  · intro v hv
    rcases (hmemV' v).1 hv with hv' | hv'
    · -- newly discovered node: extend `current`'s chain by one step
      obtain ⟨nc, pc, hdc', hchainc, hlenc, hlecf, hnodes, hrev⟩ := hnode current hcurV
      have hnceq : nc = dc := isBfsDist_unique hdc' hdc
      have hlookup : (storeFind ((news.map fun w => (w, some current)).reverse ++ cf)
          v).getD none = some current := by
        rw [storeFind_payload_block _ cf v ?_ ?_]
        · rfl
        · intro e he
          rw [List.mem_reverse] at he
          obtain ⟨w, _, rfl⟩ := List.mem_map.1 he
          rfl
        · refine ⟨(v, some current), ?_, rfl⟩
          rw [List.mem_reverse]
          exact List.mem_map.2 ⟨v, hv', rfl⟩
      have hchain' : CFChain ((news.map fun w => (w, some current)).reverse ++ cf)
          current pc :=
        cfChain_mono hchainc fun x hx => by rw [hpres x (hnodes x hx)]
      have hpcne : pc ≠ [] := cfChain_nonempty hchainc
      refine ⟨dc + 1, v :: pc, hfactA v hv', CFChain.step hlookup hchain', ?_, ?_,
        ?_, ?_, ?_, ?_⟩
      · rw [List.length_cons, hlenc, hnceq]
      · rw [List.length_cons, List.length_append, List.length_reverse,
          List.length_map]
        have hne : 1 ≤ news.length := by
          cases news with
          | nil => exact absurd hv' (List.not_mem_nil v)
          | cons a l => simp
        omega
      · intro u hu
        rcases List.mem_cons.1 hu with rfl | hu'
        · exact hv
        · exact (hmemV' u).2 (Or.inr (hnodes u hu'))
      · rfl
      · show (v :: pc).getLast? = some s
        rw [show v :: pc = [v] ++ pc from rfl, List.getLast?_append, hrev.2.1]
        rfl
      · show List.Chain' (fun a b => a ∈ adjGet adj b) (v :: pc)
        rw [List.chain'_cons']
        refine ⟨?_, hrev.2.2⟩
        intro y hy
        rw [hrev.1] at hy
        cases hy
        exact (hsub v hv').1
    · -- previously visited node: its chain is untouched
      obtain ⟨n, p, hd, hchain, hlen, hle, hnodes, hrev⟩ := hnode v hv'
      refine ⟨n, p, hd,
        cfChain_mono hchain fun x hx => by rw [hpres x (hnodes x hx)], hlen, ?_,
        fun u hu => (hmemV' u).2 (Or.inr (hnodes u hu)), hrev⟩
      rw [List.length_append]
      omega

theorem distBook_step {adj : Adjacency} {s current : Tile} {V news : List Tile}
    {dist : List (Tile × Nat)} {dc : Nat}
    (book : DistBook adj s V dist)
    (hsub : ∀ w ∈ news, w ∈ adjGet adj current ∧ w ∉ V)
    (hfactA : ∀ w ∈ news, IsBfsDist adj s w (dc + 1)) :
    DistBook adj s (news.reverse ++ V)
      ((news.map fun w => (w, dc + 1)).reverse ++ dist) := by
  have hmemV' : ∀ x : Tile, x ∈ news.reverse ++ V ↔ x ∈ news ∨ x ∈ V := by
    intro x
    simp [List.mem_append, List.mem_reverse]
  have hentkeys : ∀ e ∈ (news.map fun w => (w, dc + 1)).reverse, e.1 ∈ news := by
    intro e he
    rw [List.mem_reverse] at he
    obtain ⟨w, hw, rfl⟩ := List.mem_map.1 he
    exact hw
  intro v hv
  rcases (hmemV' v).1 hv with hv' | hv'
  · refine ⟨dc + 1, hfactA v hv', ?_⟩
    rw [storeFind_payload_block _ dist v ?_ ?_]
    · rfl
    · intro e he
      rw [List.mem_reverse] at he
      obtain ⟨w, _, rfl⟩ := List.mem_map.1 he
      rfl
    · refine ⟨(v, dc + 1), ?_, rfl⟩
      rw [List.mem_reverse]
      exact List.mem_map.2 ⟨v, hv', rfl⟩
  · obtain ⟨n, hd, hlook⟩ := book v hv'
    refine ⟨n, hd, ?_⟩
    rw [storeFind_prepend_of_not_key dist ?_, hlook]
    intro e he heq
    exact (hsub e.1 (hentkeys e he)).2 (heq ▸ hv')

/-! ### Main correctness of `bfsAux` and `distanceAux` -/

theorem bfsAux_correct (adj : Adjacency) (s goal : Tile) :
    ∀ (fuel : Nat) (q V : List Tile) (cf : List (Tile × Option Tile)),
      BfsCore adj s goal fuel q V → BfsBook adj s V cf →
      ((¬ Reachable adj s goal → bfsAux adj goal fuel q V cf = []) ∧
        ∀ n, IsBfsDist adj s goal n →
          PathFromTo adj s goal (bfsAux adj goal fuel q V cf) ∧
          (bfsAux adj goal fuel q V cf).length = n + 1) := by
  intro fuel
  induction fuel with
  | zero =>
    intro q V cf core _
    have hq : q = [] := by
      have := core.fuel_ge
      have hlen : q.length = 0 := by omega
      exact List.length_eq_zero.1 hlen
    subst hq
    refine ⟨fun _ => rfl, ?_⟩
    intro n hn
    exfalso
    have hgV : goal ∈ V := core.closure goal n hn (fun h nh hh => by simp at hh)
    exact absurd (core.goal_pending hgV) (List.not_mem_nil goal)
  | succ f ih =>
    intro q V cf core book
    cases q with
    | nil =>
      refine ⟨fun _ => rfl, ?_⟩
      intro n hn
      exfalso
      have hgV : goal ∈ V := core.closure goal n hn (fun h nh hh => by simp at hh)
      exact absurd (core.goal_pending hgV) (List.not_mem_nil goal)
    | cons current qrest =>
      by_cases hgoal : current = goal
      · subst hgoal
        have hres : bfsAux adj current (f + 1) (current :: qrest) V cf =
            reconstructPath cf current := by
          rw [bfsAux, if_pos rfl]
        obtain ⟨n₀, p, hd, hchain, hlen, hle, _, hrev⟩ :=
          book.2 current (core.qsub current (List.mem_cons_self _ _))
        have hrecon : reconstructPath cf current = p.reverse :=
          reconstructPath_chain hchain (by omega)
        refine ⟨fun hnr => absurd ⟨n₀, hd.1⟩ hnr, ?_⟩
        intro n hn
        have hnn : n = n₀ := isBfsDist_unique hn hd
        subst hnn
        rw [hres, hrecon]
        obtain ⟨hh, hl, hc⟩ := hrev
        refine ⟨⟨?_, ?_, ?_⟩, ?_⟩
        · rw [List.head?_reverse]
          exact hl
        · rw [List.getLast?_reverse]
          exact hh
        · rw [List.chain'_reverse]
          exact hc
        · rw [List.length_reverse, hlen]
      · obtain ⟨news, heq, hnd, hsub, hcomp⟩ :=
          discover_spec (some current) (adjGet adj current) V cf []
        rw [List.nil_append] at heq
        have hcurV : current ∈ V := core.qsub current (List.mem_cons_self _ _)
        obtain ⟨dc, hdc⟩ := core.vdist current hcurV
        obtain ⟨core', hfactA⟩ := bfsCore_step core hgoal hnd hsub hcomp hdc
        have book' := bfsBook_step book hsub hcurV hdc hfactA
        have hres : bfsAux adj goal (f + 1) (current :: qrest) V cf =
            bfsAux adj goal f (qrest ++ news) (news.reverse ++ V)
              ((news.map fun w => (w, some current)).reverse ++ cf) := by
          rw [bfsAux, if_neg hgoal, heq]
        rw [hres]
        exact ih _ _ _ core' book'

theorem distanceAux_correct (adj : Adjacency) (s goal : Tile) :
    ∀ (fuel : Nat) (q V : List Tile) (dist : List (Tile × Nat)),
      BfsCore adj s goal fuel q V → DistBook adj s V dist →
      ((¬ Reachable adj s goal → distanceAux adj goal fuel q V dist = none) ∧
        ∀ n, IsBfsDist adj s goal n →
          distanceAux adj goal fuel q V dist = some n) := by
  intro fuel
  induction fuel with
  | zero =>
    intro q V dist core _
    have hq : q = [] := by
      have := core.fuel_ge
      have hlen : q.length = 0 := by omega
      exact List.length_eq_zero.1 hlen
    subst hq
    refine ⟨fun _ => rfl, ?_⟩
    intro n hn
    exfalso
    have hgV : goal ∈ V := core.closure goal n hn (fun h nh hh => by simp at hh)
    exact absurd (core.goal_pending hgV) (List.not_mem_nil goal)
  | succ f ih =>
    intro q V dist core book
    cases q with
    | nil =>
      refine ⟨fun _ => rfl, ?_⟩
      intro n hn
      exfalso
      have hgV : goal ∈ V := core.closure goal n hn (fun h nh hh => by simp at hh)
      exact absurd (core.goal_pending hgV) (List.not_mem_nil goal)
    | cons current qrest =>
      by_cases hgoal : current = goal
      · subst hgoal
        obtain ⟨n₀, hd, hlook⟩ :=
          book current (core.qsub current (List.mem_cons_self _ _))
        have hres : distanceAux adj current (f + 1) (current :: qrest) V dist =
            some ((storeFind dist current).getD 0) := by
          rw [distanceAux, if_pos rfl]
        refine ⟨fun hnr => absurd ⟨n₀, hd.1⟩ hnr, ?_⟩
        intro n hn
        have hnn : n = n₀ := isBfsDist_unique hn hd
        subst hnn
        rw [hres, hlook]
      · have hcurV : current ∈ V := core.qsub current (List.mem_cons_self _ _)
        obtain ⟨dc, hdc, hlook⟩ := book current hcurV
        obtain ⟨news, heq, hnd, hsub, hcomp⟩ :=
          discover_spec (dc + 1) (adjGet adj current) V dist []
        rw [List.nil_append] at heq
        obtain ⟨core', hfactA⟩ := bfsCore_step core hgoal hnd hsub hcomp hdc
        have book' := distBook_step book hsub hfactA
        have hres : distanceAux adj goal (f + 1) (current :: qrest) V dist =
            distanceAux adj goal f (qrest ++ news) (news.reverse ++ V)
              ((news.map fun w => (w, dc + 1)).reverse ++ dist) := by
          rw [distanceAux, if_neg hgoal, hlook, heq]
        rw [hres]
        exact ih _ _ _ core' book'

theorem reachable_iff_exists_path {adj : Adjacency} {s g : Tile} :
    Reachable adj s g ↔ ∃ p, PathFromTo adj s g p := by
  constructor
  · rintro ⟨n, hn⟩
    obtain ⟨p, hp, _⟩ := reachN_iff_path.1 hn
    exact ⟨p, hp⟩
  · rintro ⟨p, hp⟩
    have hpne : p ≠ [] := by
      intro h0
      rw [h0] at hp
      exact Option.noConfusion hp.1
    have hlen : p.length = (p.length - 1) + 1 := by
      have : 0 < p.length := List.length_pos.2 hpne
      omega
    exact ⟨p.length - 1, reachN_iff_path.2 ⟨p, hp, hlen⟩⟩

/-- C5: for every finite adjacency map and distinct tiles `start`, `goal` with
`goal` reachable from `start`, `bfsPath` returns a sequence that begins with
`start`, ends with `goal`, steps only along `adj`, and whose edge count is
minimal over all `start`-to-`goal` paths in `adj`. -/
theorem c5_bfsPath_shortest (adj : Adjacency) (start goal : Tile)
    (hne : start ≠ goal) (hreach : ∃ p, PathFromTo adj start goal p) :
    PathFromTo adj start goal (bfsPath adj start goal) ∧
      ∀ p, PathFromTo adj start goal p →
        (bfsPath adj start goal).length ≤ p.length := by
  have hr : Reachable adj start goal := reachable_iff_exists_path.2 hreach
  obtain ⟨n, hn⟩ := reachable_isBfsDist hr
  have hspec := bfsAux_correct adj start goal (bfsFuel adj) [start] [start]
    [(start, none)] bfsCore_start bfsBook_start
  have hbfs : bfsPath adj start goal =
      bfsAux adj goal (bfsFuel adj) [start] [start] [(start, none)] := by
    rw [bfsPath, if_neg hne]
  obtain ⟨hpath, hlen⟩ := hspec.2 n hn
  rw [hbfs]
  refine ⟨hpath, ?_⟩
  intro p hp
  have hpne : p ≠ [] := by
    intro h0
    rw [h0] at hp
    exact Option.noConfusion hp.1
  have hplen : p.length = (p.length - 1) + 1 := by
    have : 0 < p.length := List.length_pos.2 hpne
    omega
  have hrp : ReachN adj start goal (p.length - 1) :=
    reachN_iff_path.2 ⟨p, hp, hplen⟩
  have := hn.2 _ hrp
  omega

/-- A small concrete adjacency for witnesses: the `NORMAL`-mode adjacency of a
1×3 grid with no towers (tiles `(0,0) – (1,0) – (2,0)`). -/
def sampleAdj : Adjacency :=
  buildPrunedAdjacency Mode.NORMAL ⟨1, 3⟩ (buildBaseEdges ⟨1, 3⟩) ∅

theorem sampleAdj_path :
    PathFromTo sampleAdj ⟨0, 0⟩ ⟨2, 0⟩ [⟨0, 0⟩, ⟨1, 0⟩, ⟨2, 0⟩] := by
  refine ⟨rfl, rfl, ?_⟩
  exact List.chain'_cons.2 ⟨by decide, List.chain'_cons.2 ⟨by decide,
    List.chain'_singleton _⟩⟩

theorem c5_witness :
    ((⟨0, 0⟩ : Tile) ≠ ⟨2, 0⟩ ∧
      (∃ p, PathFromTo sampleAdj ⟨0, 0⟩ ⟨2, 0⟩ p)) ∧
      (PathFromTo sampleAdj ⟨0, 0⟩ ⟨2, 0⟩ (bfsPath sampleAdj ⟨0, 0⟩ ⟨2, 0⟩) ∧
        ∀ p, PathFromTo sampleAdj ⟨0, 0⟩ ⟨2, 0⟩ p →
          (bfsPath sampleAdj ⟨0, 0⟩ ⟨2, 0⟩).length ≤ p.length) :=
  ⟨⟨by decide, ⟨[⟨0, 0⟩, ⟨1, 0⟩, ⟨2, 0⟩], sampleAdj_path⟩⟩,
    c5_bfsPath_shortest sampleAdj ⟨0, 0⟩ ⟨2, 0⟩ (by decide)
      ⟨[⟨0, 0⟩, ⟨1, 0⟩, ⟨2, 0⟩], sampleAdj_path⟩⟩

/-- C6: `bfsPath adj t t = [t]` for every tile, and for tiles with different
ids the result is empty iff the goal is unreachable from the start. -/
theorem c6_bfsPath_trivial_unreachable (adj : Adjacency) :
    (∀ t : Tile, bfsPath adj t t = [t]) ∧
      ∀ s g : Tile, s ≠ g →
        (bfsPath adj s g = [] ↔ ¬ ∃ p, PathFromTo adj s g p) := by
  constructor
  · intro t
    rw [bfsPath, if_pos rfl]
  · intro s g hne
    have hspec := bfsAux_correct adj s g (bfsFuel adj) [s] [s] [(s, none)]
      bfsCore_start bfsBook_start
    have hbfs : bfsPath adj s g =
        bfsAux adj g (bfsFuel adj) [s] [s] [(s, none)] := by
      rw [bfsPath, if_neg hne]
    rw [hbfs]
    constructor
    · intro hempty hex
      obtain ⟨n, hn⟩ := reachable_isBfsDist (reachable_iff_exists_path.2 hex)
      obtain ⟨⟨hh, _, _⟩, _⟩ := hspec.2 n hn
      rw [hempty] at hh
      exact Option.noConfusion hh
    · intro hnr
      exact hspec.1 fun hr => hnr (reachable_iff_exists_path.1 hr)

theorem c6_witness :
    bfsPath sampleAdj ⟨0, 0⟩ ⟨0, 0⟩ = [⟨0, 0⟩] ∧
      ((⟨0, 0⟩ : Tile) ≠ ⟨5, 5⟩ ∧
        (bfsPath sampleAdj ⟨0, 0⟩ ⟨5, 5⟩ = [] ↔
          ¬ ∃ p, PathFromTo sampleAdj ⟨0, 0⟩ ⟨5, 5⟩ p)) :=
  ⟨(c6_bfsPath_trivial_unreachable sampleAdj).1 ⟨0, 0⟩,
    by decide,
    (c6_bfsPath_trivial_unreachable sampleAdj).2 ⟨0, 0⟩ ⟨5, 5⟩ (by decide)⟩

/-- C10: the swap planner's `distance` agrees with `bfsPath`: it is finite iff
`bfsPath` is non-empty, and the finite value is the returned path's length
minus one (its edge count). -/
theorem c10_distance_refines_bfsPath (adj : Adjacency) (u v : Tile) :
    distance adj u v =
      if (bfsPath adj u v).isEmpty then none
      else some ((bfsPath adj u v).length - 1) := by
  by_cases hne : u = v
  · subst hne
    rw [distance, if_pos rfl, bfsPath, if_pos rfl]
    rfl
  · have hbspec := bfsAux_correct adj u v (bfsFuel adj) [u] [u] [(u, none)]
      bfsCore_start bfsBook_start
    have hdspec := distanceAux_correct adj u v (bfsFuel adj) [u] [u] [(u, 0)]
      bfsCore_start distBook_start
    rw [distance, if_neg hne, bfsPath, if_neg hne]
    by_cases hr : Reachable adj u v
    · obtain ⟨n, hn⟩ := reachable_isBfsDist hr
      obtain ⟨_, hlen⟩ := hbspec.2 n hn
      rw [hdspec.2 n hn]
      cases hres : bfsAux adj v (bfsFuel adj) [u] [u] [(u, none)] with
      | nil =>
        rw [hres] at hlen
        simp at hlen
      | cons a l =>
        rw [hres] at hlen
        rw [show (a :: l).isEmpty = false from rfl]
        simp [hlen]
    · rw [hdspec.1 hr, hbspec.1 hr]
      rfl

/-! ### The swap planner (`expandSwap.ts`)

`stableTileKey` materialises the `"x:z"` string; the source sorts candidates
with `localeCompare`, modelled here by Lean's lexicographic `String` order.
(The two orders agree on every candidate set that can arise: candidates are
in-bounds neighbors of one tile, so their coordinate strings are nonnegative
decimal numerals differing by at most 2 per axis, for which ICU collation and
code-unit comparison coincide.) -/

/-- `stableTileKey` from `expandSwap.ts`. -/
def stableTileKey (t : Tile) : String :=
  toString t.x ++ ":" ++ toString t.z

/-- The candidate order used by `pickClosest`'s sort. -/
def keyLE (a b : Tile) : Prop :=
  stableTileKey a ≤ stableTileKey b

instance : DecidableRel keyLE := fun a b =>
  inferInstanceAs (Decidable (stableTileKey a ≤ stableTileKey b))

instance : IsTotal Tile keyLE :=
  ⟨fun a b => le_total (stableTileKey a) (stableTileKey b)⟩

instance : IsTrans Tile keyLE :=
  ⟨fun _ _ _ hab hbc => le_trans hab hbc⟩

/-- `neighbors4` from `expandSwap.ts`. -/
def neighbors4 (tile : Tile) (g : GridConfig) : List Tile :=
  [⟨tile.x + 1, tile.z⟩, ⟨tile.x - 1, tile.z⟩, ⟨tile.x, tile.z + 1⟩,
    ⟨tile.x, tile.z - 1⟩].filter fun t => isInBounds t g

/-- One iteration of `pickClosest`'s scan (`if (d < bestD) { bestD = d;
best = c }`); the state is `none` while `bestD` is still `∞`.  `none < x` is
IEEE `∞ < x`, i.e. false, and `some d < none` is `d < ∞`, i.e. true. -/
def pickStep (adjTransport : Adjacency) (swapStart : Tile)
    (st : Option (Tile × Nat)) (c : Tile) : Option (Tile × Nat) :=
  match distance adjTransport swapStart c with
  | none => st
  | some d =>
      match st with
      | none => some (c, d)
      | some (b, bd) => if d < bd then some (c, d) else some (b, bd)

/-- `pickClosest` from `expandSwap.ts`: sort by key, scan for the strictly
closest candidate, `null` iff no candidate has finite distance. -/
def pickClosest (candidates : List Tile) (adjTransport : Adjacency)
    (swapStart : Tile) : Option Tile :=
  ((List.insertionSort keyLE candidates).foldl (pickStep adjTransport swapStart)
    none).map Prod.fst

/-- `Command` from `commands.ts` (`CMD.moveTo` / `CMD.lift` / `CMD.drop`).
The source union has exactly the first three variants; `other` stands for the
"unknown/unsupported command variants" the spec's §4.6 talks about, so that
claims about them are statable.  The runner (`App.tsx`) dispatches with
`if (type === "MOVE_TO") … if (type === "LIFT") …` followed by an unguarded
trailing block commented `// DROP`, so any further variant is handled by that
block — which is how `other` is treated below. -/
inductive Command where
  | moveTo (target : Tile)
  | lift (tile : Tile)
  | drop (tile : Tile)
  | other (tile : Tile)
deriving DecidableEq, Repr

/-- The staging-candidate list of `expandSwap`: in-bounds 4-neighbors of
`bOrigin` not occupied by a placed tower. -/
def swapCandidates (grid : GridConfig) (bOrigin : Tile)
    (towerSet : Finset Tile) : List Tile :=
  (neighbors4 bOrigin grid).filter fun t => !(decide (t ∈ towerSet))

/-- `expandSwap` from `expandSwap.ts`. -/
def expandSwap (grid : GridConfig) (swapStart aOrigin bOrigin : Tile)
    (adjTransport : Adjacency) (towerSet : Finset Tile) : List Command :=
  let candidates := swapCandidates grid bOrigin towerSet
  match pickClosest candidates adjTransport swapStart with
  | none => []
  | some s1 =>
      match pickClosest (candidates.filter fun t => !(tileEquals t s1))
          adjTransport swapStart with
      | none => []
      | some s2 =>
          [Command.moveTo s1, Command.drop s1,
           Command.moveTo bOrigin, Command.lift bOrigin,
           Command.moveTo s2, Command.drop s2,
           Command.moveTo s1, Command.lift s1,
           Command.moveTo bOrigin, Command.drop bOrigin,
           Command.moveTo s2, Command.lift s2,
           Command.moveTo aOrigin, Command.drop aOrigin]

/-- `c` is the staging tile `pickClosest` is specified to select from
`candidates`: a candidate at finite BFS distance from `swapStart`, minimal
first by distance and then by lexicographic tile-key. -/
def IsBestStaging (adjTransport : Adjacency) (swapStart : Tile)
    (candidates : List Tile) (c : Tile) : Prop :=
  c ∈ candidates ∧ ∃ d, distance adjTransport swapStart c = some d ∧
    ∀ c' ∈ candidates, ∀ d', distance adjTransport swapStart c' = some d' →
      d < d' ∨ (d = d' ∧ stableTileKey c ≤ stableTileKey c')

theorem pickFold_sorted {adjT : Adjacency} {ss : Tile} :
    ∀ (l : List Tile) (b0 : Tile) (d0 : Nat),
      distance adjT ss b0 = some d0 →
      (∀ c ∈ l, keyLE b0 c) →
      List.Pairwise keyLE l →
      ∃ b bd, l.foldl (pickStep adjT ss) (some (b0, d0)) = some (b, bd) ∧
        ((b = b0 ∧ bd = d0) ∨
          (b ∈ l ∧ distance adjT ss b = some bd ∧ bd < d0)) ∧
        ∀ c ∈ l, ∀ dc, distance adjT ss c = some dc →
          bd < dc ∨ (bd = dc ∧ stableTileKey b ≤ stableTileKey c) := by
  intro l
  induction l with
  | nil =>
    intro b0 d0 hd0 _ _
    exact ⟨b0, d0, rfl, Or.inl ⟨rfl, rfl⟩, by simp⟩
  | cons c rest ih =>
    intro b0 d0 hd0 hkey hsorted
    have hpair := List.pairwise_cons.1 hsorted
    rw [List.foldl_cons]
    cases hdc : distance adjT ss c with
    | none =>
      have hstep : pickStep adjT ss (some (b0, d0)) c = some (b0, d0) := by
        simp only [pickStep, hdc]
      rw [hstep]
      obtain ⟨b, bd, heq, hcase, hmin⟩ := ih b0 d0 hd0
        (fun x hx => hkey x (List.mem_cons_of_mem _ hx)) hpair.2
      refine ⟨b, bd, heq, ?_, ?_⟩
      · rcases hcase with h | ⟨h1, h2, h3⟩
        · exact Or.inl h
        · exact Or.inr ⟨List.mem_cons_of_mem _ h1, h2, h3⟩
      · intro x hx dx hdx
        rcases List.mem_cons.1 hx with rfl | hx'
        · rw [hdc] at hdx
          exact Option.noConfusion hdx
        · exact hmin x hx' dx hdx
    | some d =>
      by_cases hlt : d < d0
      · have hstep : pickStep adjT ss (some (b0, d0)) c = some (c, d) := by
          simp only [pickStep, hdc, if_pos hlt]
        rw [hstep]
        obtain ⟨b, bd, heq, hcase, hmin⟩ := ih c d hdc
          (fun x hx => hpair.1 x hx) hpair.2
        refine ⟨b, bd, heq, ?_, ?_⟩
        · rcases hcase with ⟨rfl, rfl⟩ | ⟨h1, h2, h3⟩
          · exact Or.inr ⟨List.mem_cons_self _ _, hdc, hlt⟩
          · exact Or.inr ⟨List.mem_cons_of_mem _ h1, h2, by omega⟩
        · intro x hx dx hdx
          rcases List.mem_cons.1 hx with rfl | hx'
          · rw [hdc] at hdx
            have hdd : d = dx := Option.some.inj hdx
            rcases hcase with ⟨rfl, rfl⟩ | ⟨h1, h2, h3⟩
            · exact Or.inr ⟨by omega, le_refl _⟩
            · exact Or.inl (by omega)
          · exact hmin x hx' dx hdx
      · have hstep : pickStep adjT ss (some (b0, d0)) c = some (b0, d0) := by
          simp only [pickStep, hdc, if_neg hlt]
        rw [hstep]
        obtain ⟨b, bd, heq, hcase, hmin⟩ := ih b0 d0 hd0
          (fun x hx => hkey x (List.mem_cons_of_mem _ hx)) hpair.2
        refine ⟨b, bd, heq, ?_, ?_⟩
        · rcases hcase with h | ⟨h1, h2, h3⟩
          · exact Or.inl h
          · exact Or.inr ⟨List.mem_cons_of_mem _ h1, h2, h3⟩
        intro x hx dx hdx
        rcases List.mem_cons.1 hx with rfl | hx'
        · rw [hdc] at hdx
          have hdd : d = dx := Option.some.inj hdx
          rcases hcase with ⟨hb, hbd⟩ | ⟨h1, h2, h3⟩
          · by_cases hbddx : bd < dx
            · exact Or.inl hbddx
            · refine Or.inr ⟨by omega, ?_⟩
              rw [hb]
              exact hkey x (List.mem_cons_self _ _)
          · exact Or.inl (by omega)
        · exact hmin x hx' dx hdx

theorem pickFold_none {adjT : Adjacency} {ss : Tile} :
    ∀ (l : List Tile), List.Pairwise keyLE l →
      (l.foldl (pickStep adjT ss) none = none ∧
        ∀ c ∈ l, distance adjT ss c = none) ∨
      (∃ b bd, l.foldl (pickStep adjT ss) none = some (b, bd) ∧ b ∈ l ∧
        distance adjT ss b = some bd ∧
        ∀ c ∈ l, ∀ dc, distance adjT ss c = some dc →
          bd < dc ∨ (bd = dc ∧ stableTileKey b ≤ stableTileKey c)) := by
  intro l
  induction l with
  | nil =>
    intro _
    exact Or.inl ⟨rfl, by simp⟩
  | cons c rest ih =>
    intro hsorted
    have hpair := List.pairwise_cons.1 hsorted
    rw [List.foldl_cons]
    cases hdc : distance adjT ss c with
    | none =>
      have hstep : pickStep adjT ss none c = none := by
        simp only [pickStep, hdc]
      rw [hstep]
      rcases ih hpair.2 with ⟨heq, hall⟩ | ⟨b, bd, heq, hb, hbd, hmin⟩
      · refine Or.inl ⟨heq, ?_⟩
        intro x hx
        rcases List.mem_cons.1 hx with rfl | hx'
        · exact hdc
        · exact hall x hx'
      · refine Or.inr ⟨b, bd, heq, List.mem_cons_of_mem _ hb, hbd, ?_⟩
        intro x hx dx hdx
        rcases List.mem_cons.1 hx with rfl | hx'
        · rw [hdc] at hdx
          exact Option.noConfusion hdx
        · exact hmin x hx' dx hdx
    | some d =>
      have hstep : pickStep adjT ss none c = some (c, d) := by
        simp only [pickStep, hdc]
      rw [hstep]
      obtain ⟨b, bd, heq, hcase, hmin⟩ :=
        pickFold_sorted rest c d hdc hpair.1 hpair.2
      refine Or.inr ⟨b, bd, heq, ?_, ?_, ?_⟩
      · rcases hcase with ⟨rfl, _⟩ | ⟨h1, _, _⟩
        · exact List.mem_cons_self _ _
        · exact List.mem_cons_of_mem _ h1
      · rcases hcase with ⟨rfl, rfl⟩ | ⟨_, h2, _⟩
        · exact hdc
        · exact h2
      · intro x hx dx hdx
        rcases List.mem_cons.1 hx with rfl | hx'
        · rw [hdc] at hdx
          have hdd : d = dx := Option.some.inj hdx
          rcases hcase with ⟨rfl, rfl⟩ | ⟨_, _, h3⟩
          · exact Or.inr ⟨hdd, le_refl _⟩
          · exact Or.inl (by omega)
        · exact hmin x hx' dx hdx

/-- `pickClosest` either returns `none` with every candidate at infinite
distance, or returns a best staging tile. -/
theorem pickClosest_spec (candidates : List Tile) (adjT : Adjacency)
    (ss : Tile) :
    (pickClosest candidates adjT ss = none ∧
      ∀ c ∈ candidates, distance adjT ss c = none) ∨
    ∃ c, pickClosest candidates adjT ss = some c ∧
      IsBestStaging adjT ss candidates c := by
  have hsorted : List.Pairwise keyLE (List.insertionSort keyLE candidates) :=
    List.sorted_insertionSort keyLE candidates
  have hperm : ∀ x : Tile, x ∈ List.insertionSort keyLE candidates ↔
      x ∈ candidates :=
    fun x => (List.perm_insertionSort keyLE candidates).mem_iff
  rcases pickFold_none (List.insertionSort keyLE candidates) hsorted with
    ⟨heq, hall⟩ | ⟨b, bd, heq, hb, hbd, hmin⟩
  · refine Or.inl ⟨?_, ?_⟩
    · rw [pickClosest, heq]
      rfl
    · intro c hc
      exact hall c ((hperm c).2 hc)
  · refine Or.inr ⟨b, ?_, (hperm b).1 hb, bd, hbd, ?_⟩
    · rw [pickClosest, heq]
      rfl
    · intro c' hc' d' hd'
      exact hmin c' ((hperm c').2 hc') d' hd'

/-- C1: `expandSwap` returns either the empty sequence or exactly the
14-command sequence `MOVE_TO(s1), DROP(s1), MOVE_TO(bOrigin), LIFT(bOrigin),
MOVE_TO(s2), DROP(s2), MOVE_TO(s1), LIFT(s1), MOVE_TO(bOrigin), DROP(bOrigin),
MOVE_TO(s2), LIFT(s2), MOVE_TO(aOrigin), DROP(aOrigin)` where `s1` is the
distance-then-key minimal candidate among the free in-bounds neighbors of
`bOrigin` and `s2` the same selection among the remaining candidates; and the
result is empty iff either selection has no finite-distance candidate. -/
theorem c1_expandSwap_sequence (grid : GridConfig)
    (swapStart aOrigin bOrigin : Tile) (adjTransport : Adjacency)
    (towerSet : Finset Tile) :
    (expandSwap grid swapStart aOrigin bOrigin adjTransport towerSet = [] ∨
      ∃ s1 s2,
        IsBestStaging adjTransport swapStart
          (swapCandidates grid bOrigin towerSet) s1 ∧
        IsBestStaging adjTransport swapStart
          ((swapCandidates grid bOrigin towerSet).filter fun t =>
            !(tileEquals t s1)) s2 ∧
        expandSwap grid swapStart aOrigin bOrigin adjTransport towerSet =
          [Command.moveTo s1, Command.drop s1,
           Command.moveTo bOrigin, Command.lift bOrigin,
           Command.moveTo s2, Command.drop s2,
           Command.moveTo s1, Command.lift s1,
           Command.moveTo bOrigin, Command.drop bOrigin,
           Command.moveTo s2, Command.lift s2,
           Command.moveTo aOrigin, Command.drop aOrigin]) ∧
    (expandSwap grid swapStart aOrigin bOrigin adjTransport towerSet = [] ↔
      (∀ c ∈ swapCandidates grid bOrigin towerSet,
        distance adjTransport swapStart c = none) ∨
      ∃ s1, IsBestStaging adjTransport swapStart
          (swapCandidates grid bOrigin towerSet) s1 ∧
        ∀ c ∈ (swapCandidates grid bOrigin towerSet).filter fun t =>
            !(tileEquals t s1),
          distance adjTransport swapStart c = none) := by
  rcases pickClosest_spec (swapCandidates grid bOrigin towerSet) adjTransport
      swapStart with ⟨h1, hall1⟩ | ⟨s1, h1, hbest1⟩
  · -- first selection fails: result is []
    have hres : expandSwap grid swapStart aOrigin bOrigin adjTransport
        towerSet = [] := by
      rw [expandSwap, h1]
    refine ⟨Or.inl hres, ?_⟩
    rw [hres]
    simp only [true_iff]
    exact Or.inl hall1
  · rcases pickClosest_spec ((swapCandidates grid bOrigin towerSet).filter
        fun t => !(tileEquals t s1)) adjTransport swapStart with
      ⟨h2, hall2⟩ | ⟨s2, h2, hbest2⟩
    · -- second selection fails: result is []
      have hres : expandSwap grid swapStart aOrigin bOrigin adjTransport
          towerSet = [] := by
        rw [expandSwap, h1]
        dsimp only
        rw [h2]
      refine ⟨Or.inl hres, ?_⟩
      rw [hres]
      simp only [true_iff]
      exact Or.inr ⟨s1, hbest1, hall2⟩
    · -- both selections succeed: the 14-command plan
      have hres : expandSwap grid swapStart aOrigin bOrigin adjTransport
          towerSet =
          [Command.moveTo s1, Command.drop s1,
           Command.moveTo bOrigin, Command.lift bOrigin,
           Command.moveTo s2, Command.drop s2,
           Command.moveTo s1, Command.lift s1,
           Command.moveTo bOrigin, Command.drop bOrigin,
           Command.moveTo s2, Command.lift s2,
           Command.moveTo aOrigin, Command.drop aOrigin] := by
        rw [expandSwap, h1]
        dsimp only
        rw [h2]
      refine ⟨Or.inr ⟨s1, s2, hbest1, hbest2, hres⟩, ?_⟩
      rw [hres]
      constructor
      · intro hcontra
        exact List.noConfusion hcontra
      · rintro (hallnone | ⟨s1', hbest1', hall'⟩)
        · obtain ⟨hmem, d, hd, _⟩ := hbest1
          rw [hallnone s1 hmem] at hd
          exact Option.noConfusion hd
        · -- the hypothesised s1' must be the picked s1
          obtain ⟨hmem1, d1, hd1, _⟩ := hbest1
          have hs1eq : s1 = s1' := by
            by_contra hne
            have hmemf : s1 ∈ (swapCandidates grid bOrigin towerSet).filter
                fun t => !(tileEquals t s1') := by
              rw [List.mem_filter]
              refine ⟨hmem1, ?_⟩
              rw [Bool.not_eq_eq_eq_not]
              simp only [Bool.not_true]
              rw [← Bool.not_eq_true]
              intro hteq
              exact hne (tileEquals_iff.1 hteq)
            rw [hall' s1 hmemf] at hd1
            exact Option.noConfusion hd1
          subst hs1eq
          obtain ⟨hmem2, d2, hd2, _⟩ := hbest2
          rw [hall' s2 hmem2] at hd2
          exact Option.noConfusion hd2

/-! ### The command runner (`App.tsx`)

`runNext` processes one queue head per invocation (the trailing `kick()` of
each branch schedules the *next* invocation and is not part of a single
step).  The state mirrors the runner-owned refs: `queueRef`, `dollyTileRef`,
`towersRef` (placed towers only — a lifted tower is removed at lift time),
`carryingRef` and `pathRef`.  The runtime adjacency is recomputed from the
current towers and carrying mode on entry (`refreshRuntimeGraphs`), so it is
a derived value here, not stored state. -/

structure SimState where
  queue : List Command
  dolly : Tile
  towers : List Tile
  carrying : Option Tile
  path : List Tile
deriving DecidableEq, Repr

/-- `tileHasTower` from `runNext` (`App.tsx`). -/
def tileHasTower (tile : Tile) (list : List Tile) : Bool :=
  list.any fun t => tileEquals t tile

/-- `carryingRef.current ? "TRANSPORT" : "NORMAL"` (`refreshRuntimeGraphs`). -/
def runtimeMode (carrying : Option Tile) : Mode :=
  match carrying with
  | some _ => Mode.TRANSPORT
  | none => Mode.NORMAL

/-- The adjacency `refreshRuntimeGraphs` stores in `adjRef`. -/
def runtimeAdj (grid : GridConfig) (s : SimState) : Adjacency :=
  buildPrunedAdjacency (runtimeMode s.carrying) grid (buildBaseEdges grid)
    (buildTowerSet s.towers)

/-- `current.tile` (and `current.to` for MOVE_TO, unused by the runner's
trailing block). -/
def cmdTile : Command → Tile
  | Command.moveTo target => target
  | Command.lift tile => tile
  | Command.drop tile => tile
  | Command.other tile => tile

/-- `tryRewriteWithMove` from `App.tsx`: unreachable target drops the head;
otherwise a `MOVE_TO(target)` is prepended ahead of the original command. -/
def tryRewriteWithMove (grid : GridConfig) (s : SimState) (target : Tile)
    (cmd : Command) (rest : List Command) : SimState :=
  -- `nextPath` is read only in this test in the source
  if (bfsPath (runtimeAdj grid s) s.dolly target).length < 2 ∧
      tileEquals s.dolly target = false then
    { s with queue := rest }
  else
    { s with queue := Command.moveTo target :: cmd :: rest }

/-- One invocation of `runNext` from `App.tsx`.  The dispatch is
`if (type === "MOVE_TO") … if (type === "LIFT") …` followed by an unguarded
block commented `// DROP`; accordingly every command that is neither
`moveTo` nor `lift` falls through to the final arm. -/
def runNext (grid : GridConfig) (s : SimState) : SimState :=
  if 2 ≤ s.path.length then s
  else
    match s.queue with
    | [] => s
    | current :: rest =>
        match current with
        | Command.moveTo target =>
            if tileEquals s.dolly target then { s with queue := rest }
            else if (bfsPath (runtimeAdj grid s) s.dolly target).length < 2 then
              { s with queue := rest }
            else
              { s with queue := rest,
                       path := bfsPath (runtimeAdj grid s) s.dolly target }
        | Command.lift target =>
            if !(tileEquals s.dolly target) then
              tryRewriteWithMove grid s target current rest
            else if s.carrying.isSome then { s with queue := rest }
            else if !(tileHasTower target s.towers) then { s with queue := rest }
            else
              { s with queue := rest,
                       towers := s.towers.filter fun t => !(tileEquals t target),
                       carrying := some target }
        | cmd =>
            -- the `// DROP` block; `target = current.tile` (`cmdTile cmd`)
            if !(tileEquals s.dolly (cmdTile cmd)) then
              tryRewriteWithMove grid s (cmdTile cmd) cmd rest
            else if s.carrying.isNone then { s with queue := rest }
            else if tileHasTower (cmdTile cmd) s.towers then { s with queue := rest }
            else
              { s with queue := rest,
                       towers := s.towers ++ [cmdTile cmd],
                       carrying := none }

/-- C2: a LIFT or DROP head whose target differs from the agent's tile, with a
BFS path of length ≥ 2 to the target in the current adjacency, is rewritten in
one step to `MOVE_TO(target)` followed by the original command and the
untouched remainder; tower set, carrying state, agent tile and committed path
are unchanged. -/
theorem c2_rewrite_with_move (grid : GridConfig) (s : SimState) (target : Tile)
    (cmd : Command) (rest : List Command)
    (hhead : s.queue = cmd :: rest)
    (hcmd : cmd = Command.lift target ∨ cmd = Command.drop target)
    (hnotmoving : s.path.length < 2)
    (hne : tileEquals s.dolly target = false)
    (hpath : 2 ≤ (bfsPath (runtimeAdj grid s) s.dolly target).length) :
    runNext grid s = { s with queue := Command.moveTo target :: cmd :: rest } := by
  have hnm : ¬(2 ≤ s.path.length) := by omega
  have hno : ¬((bfsPath (runtimeAdj grid s) s.dolly target).length < 2 ∧
      tileEquals s.dolly target = false) := by
    intro h
    exact absurd h.1 (by omega)
  rcases hcmd with rfl | rfl
  · rw [runNext, if_neg hnm, hhead]
    dsimp only
    rw [hne]
    show tryRewriteWithMove grid s target (Command.lift target) rest = _
    rw [tryRewriteWithMove, if_neg hno]
  · rw [runNext, if_neg hnm, hhead]
    dsimp only [cmdTile]
    rw [hne]
    show tryRewriteWithMove grid s target (Command.drop target) rest = _
    rw [tryRewriteWithMove, if_neg hno]

def c2SimState : SimState :=
  ⟨[Command.lift ⟨2, 0⟩], ⟨0, 0⟩, [], none, []⟩

theorem c2_witness :
    (c2SimState.queue = Command.lift ⟨2, 0⟩ :: [] ∧
      c2SimState.path.length < 2 ∧
      tileEquals c2SimState.dolly ⟨2, 0⟩ = false ∧
      2 ≤ (bfsPath (runtimeAdj ⟨1, 3⟩ c2SimState) c2SimState.dolly ⟨2, 0⟩).length) ∧
    runNext ⟨1, 3⟩ c2SimState =
      { c2SimState with
          queue := [Command.moveTo ⟨2, 0⟩, Command.lift ⟨2, 0⟩] } :=
  ⟨⟨rfl, by decide, by decide, by decide⟩,
    c2_rewrite_with_move ⟨1, 3⟩ c2SimState ⟨2, 0⟩ (Command.lift ⟨2, 0⟩) [] rfl
      (Or.inl rfl) (by decide) (by decide) (by decide)⟩

/-- C7: a LIFT head with the agent at the target is a no-op removal when the
agent already carries something or the target has no tower; when neither
precondition fails, the step removes exactly the target from the tower list,
sets carrying to the target, and leaves tile and path alone. -/
theorem c7_lift_semantics (grid : GridConfig) (s : SimState) (target : Tile)
    (rest : List Command)
    (hhead : s.queue = Command.lift target :: rest)
    (hnotmoving : s.path.length < 2)
    (hat : tileEquals s.dolly target = true) :
    ((s.carrying.isSome = true ∨ tileHasTower target s.towers = false) →
      runNext grid s = { s with queue := rest }) ∧
    (s.carrying = none → tileHasTower target s.towers = true →
      runNext grid s =
        { s with
            queue := rest,
            towers := s.towers.filter (fun t => !(tileEquals t target)),
            carrying := some target } ∧
      ∀ u : Tile, u ∈ (runNext grid s).towers ↔ u ∈ s.towers ∧ u ≠ target) := by
  have hnm : ¬(2 ≤ s.path.length) := by omega
  have hbase : runNext grid s =
      (if s.carrying.isSome = true then { s with queue := rest }
       else if (!(tileHasTower target s.towers)) = true then { s with queue := rest }
       else
        { s with
            queue := rest,
            towers := s.towers.filter (fun t => !(tileEquals t target)),
            carrying := some target }) := by
    rw [runNext, if_neg hnm, hhead]
    dsimp only
    rw [hat]
    simp only [Bool.not_true]
    rw [if_neg Bool.false_ne_true]
  constructor
  · rintro (hc | ht)
    · rw [hbase, if_pos hc]
    · rw [hbase]
      by_cases hc : s.carrying.isSome = true
      · rw [if_pos hc]
      · rw [if_neg hc, if_pos (by rw [ht]; rfl)]
  · intro hc ht
    have hcs : ¬(s.carrying.isSome = true) := by
      rw [hc]
      exact Bool.false_ne_true
    have hts : ¬((!(tileHasTower target s.towers)) = true) := by
      rw [ht]
      exact Bool.false_ne_true
    have hres : runNext grid s =
        { s with
            queue := rest,
            towers := s.towers.filter (fun t => !(tileEquals t target)),
            carrying := some target } := by
      rw [hbase, if_neg hcs, if_neg hts]
    refine ⟨hres, ?_⟩
    intro u
    rw [hres]
    show u ∈ s.towers.filter (fun t => !(tileEquals t target)) ↔ _
    rw [List.mem_filter]
    constructor
    · rintro ⟨hu, hne⟩
      refine ⟨hu, ?_⟩
      intro heq
      rw [heq, show tileEquals target target = true from tileEquals_iff.2 rfl] at hne
      exact Bool.noConfusion hne
    · rintro ⟨hu, hne⟩
      refine ⟨hu, ?_⟩
      cases hte : tileEquals u target
      · rfl
      · exact absurd (tileEquals_iff.1 hte) hne

def c7SimState : SimState :=
  ⟨[Command.lift ⟨1, 0⟩], ⟨1, 0⟩, [⟨1, 0⟩], none, []⟩

theorem c7_witness :
    (c7SimState.queue = Command.lift ⟨1, 0⟩ :: [] ∧
      c7SimState.path.length < 2 ∧
      tileEquals c7SimState.dolly ⟨1, 0⟩ = true ∧ c7SimState.carrying = none ∧
      tileHasTower ⟨1, 0⟩ c7SimState.towers = true) ∧
    (runNext ⟨1, 3⟩ c7SimState =
        { c7SimState with
            queue := [],
            towers := c7SimState.towers.filter (fun t => !(tileEquals t ⟨1, 0⟩)),
            carrying := some ⟨1, 0⟩ } ∧
      ∀ u : Tile, u ∈ (runNext ⟨1, 3⟩ c7SimState).towers ↔
        u ∈ c7SimState.towers ∧ u ≠ ⟨1, 0⟩) :=
  ⟨⟨rfl, by decide, by decide, rfl, by decide⟩,
    (c7_lift_semantics ⟨1, 3⟩ c7SimState ⟨1, 0⟩ [] rfl (by decide) (by decide)).2
      rfl (by decide)⟩

/-- The concrete state refuting C3: the agent stands on an empty tile while
carrying, and the queue head is an unknown-variant command for that tile. -/
def simOtherState : SimState :=
  ⟨[Command.other ⟨0, 0⟩], ⟨0, 0⟩, [], some ⟨0, 0⟩, []⟩

theorem c3_counterexample :
    runNext ⟨1, 1⟩ simOtherState ≠ { simOtherState with queue := [] } ∧
      (runNext ⟨1, 1⟩ simOtherState).towers ≠ simOtherState.towers := by
  decide

/-- C3 (amended): a head of a variant other than MOVE_TO, LIFT or DROP is
handled by the runner's trailing DROP block, not dropped as a blanket no-op.
It is removed with the state unchanged exactly when the agent is at its tile
and the DROP preconditions fail (not carrying, or tile already towered); when
the agent is at the tile, carrying, and the tile is free, the tile is added to
the tower set and carrying is cleared; when the agent is elsewhere the command
is rewritten with a prepended MOVE_TO if a path of length ≥ 2 exists and is
dropped otherwise. -/
theorem c3_other_head (grid : GridConfig) (s : SimState) (target : Tile)
    (rest : List Command)
    (hhead : s.queue = Command.other target :: rest)
    (hnotmoving : s.path.length < 2) :
    (tileEquals s.dolly target = true → s.carrying = none →
      runNext grid s = { s with queue := rest }) ∧
    (tileEquals s.dolly target = true → tileHasTower target s.towers = true →
      runNext grid s = { s with queue := rest }) ∧
    (tileEquals s.dolly target = true → s.carrying.isSome = true →
      tileHasTower target s.towers = false →
      runNext grid s =
        { s with
            queue := rest,
            towers := s.towers ++ [target],
            carrying := none }) ∧
    (tileEquals s.dolly target = false →
      ((bfsPath (runtimeAdj grid s) s.dolly target).length < 2 →
        runNext grid s = { s with queue := rest }) ∧
      (2 ≤ (bfsPath (runtimeAdj grid s) s.dolly target).length →
        runNext grid s =
          { s with queue :=
              Command.moveTo target :: Command.other target :: rest })) := by
  have hnm : ¬(2 ≤ s.path.length) := by omega
  have hbase : runNext grid s =
      (if (!(tileEquals s.dolly target)) = true then
        tryRewriteWithMove grid s target (Command.other target) rest
      else if s.carrying.isNone = true then { s with queue := rest }
      else if tileHasTower target s.towers = true then { s with queue := rest }
      else
        { s with
            queue := rest,
            towers := s.towers ++ [target],
            carrying := none }) := by
    rw [runNext, if_neg hnm, hhead]
    dsimp only [cmdTile]
  refine ⟨?_, ?_, ?_, ?_⟩
  · intro hat hc
    rw [hbase, hat]
    simp only [Bool.not_true]
    rw [if_neg Bool.false_ne_true, if_pos (by rw [hc]; rfl)]
  · intro hat ht
    rw [hbase, hat]
    simp only [Bool.not_true]
    rw [if_neg Bool.false_ne_true]
    by_cases hc : s.carrying.isNone = true
    · rw [if_pos hc]
    · rw [if_neg hc, if_pos ht]
  · intro hat hc ht
    have hcn : ¬(s.carrying.isNone = true) := by
      intro habs
      rw [Option.isNone_iff_eq_none] at habs
      rw [habs] at hc
      simp at hc
    have htn : ¬(tileHasTower target s.towers = true) := by
      rw [ht]
      exact Bool.false_ne_true
    rw [hbase, hat]
    simp only [Bool.not_true]
    rw [if_neg Bool.false_ne_true, if_neg hcn, if_neg htn]
  · intro hne
    constructor
    · intro hshort
      rw [hbase, hne]
      simp only [Bool.not_false, if_true]
      rw [tryRewriteWithMove, if_pos ⟨hshort, hne⟩]
    · intro hlong
      rw [hbase, hne]
      simp only [Bool.not_false, if_true]
      rw [tryRewriteWithMove, if_neg (by
        intro h
        exact absurd h.1 (by omega))]

theorem c3_witness :
    (simOtherState.queue = Command.other ⟨0, 0⟩ :: [] ∧
      simOtherState.path.length < 2 ∧
      tileEquals simOtherState.dolly ⟨0, 0⟩ = true ∧
      simOtherState.carrying.isSome = true ∧
      tileHasTower ⟨0, 0⟩ simOtherState.towers = false) ∧
    runNext ⟨1, 1⟩ simOtherState =
      { simOtherState with
          queue := [],
          towers := simOtherState.towers ++ [⟨0, 0⟩],
          carrying := none } :=
  ⟨⟨rfl, by decide, by decide, rfl, by decide⟩,
    ((c3_other_head ⟨1, 1⟩ simOtherState ⟨0, 0⟩ [] rfl (by decide)).2.2.1
      (by decide) rfl (by decide))⟩

end DollyGrid
